import Mathlib

/-!
# Terminal input decoder (`src/src/ftxui/component/terminal_input_parser.cpp`)

A shallow embedding of `ftxui::TerminalInputParser` and a verification of the
properties that the specification states about it.

Conventions of the embedding.

* A byte is a natural number, the unsigned value (`0 .. 255`) of the `char`
  held by `pending_`; `Current()` converts to `unsigned char`, so this is the
  value every comparison of the source sees.
* `int` variables on which the source does arithmetic (`timeout_`, the CSI
  `argument`) are integers wrapped to 32 bits by `wrapInt32` after each
  operation.  `position_` is an `int` as well; it only ever counts bytes of
  `pending_` and is kept unwrapped.
* The object is the record `TerminalInputParser`; a member function takes the
  object and returns the updated one.  `out_->Send(e)` appends `e` to the list
  `out_` of the events delivered so far.
* `Current()` reads `pending_[position_]`; a read outside the buffer has no
  result (`none`), and the functions that read propagate it.
-/

set_option linter.unusedVariables false

namespace ftxui

/-- Modelled from the spec: `Mouse::Motion` (`mouse.hpp` is not among the
sources).  The source builds it by `Mouse::Motion(pressed)` from a `bool`. -/
inductive Motion where
  | Released
  | Pressed
  deriving DecidableEq, Repr

/-- Modelled from the spec: the conversion `Mouse::Motion(pressed)`, pressed for
`true` (terminal byte `M`) and released for `false` (terminal byte `m`). -/
def Motion.ofBool (pressed : Bool) : Motion :=
  if pressed then Motion.Pressed else Motion.Released

/-- Modelled from the spec: the `Mouse` record (`mouse.hpp` is not among the
sources), with the fields `ParseMouse` assigns.  `button` holds the numeric
value given to `Mouse::Button(...)`. -/
structure Mouse where
  button : Int
  motion : Motion
  shift : Bool
  meta : Bool
  x : Int
  y : Int
  deriving DecidableEq, Repr

/-- Modelled from the spec: the `cursor` member of `Output`
(`terminal_input_parser.hpp` is not among the sources). -/
structure Cursor where
  x : Int
  y : Int
  deriving DecidableEq, Repr

/-- Modelled from the spec: `TerminalInputParser::Output`, the closed variant
`UNCOMPLETED | DROP | CHARACTER | SPECIAL | MOUSE | CURSOR_REPORTING`
(`terminal_input_parser.hpp` is not among the sources); `MOUSE` carries
`output.mouse` and `CURSOR_REPORTING` carries `output.cursor`. -/
inductive Output where
  | UNCOMPLETED
  | DROP
  | CHARACTER
  | SPECIAL
  | MOUSE (mouse : Mouse)
  | CURSOR_REPORTING (cursor : Cursor)
  deriving DecidableEq, Repr

/-- Modelled from the spec: the events built by `Event::Character`,
`Event::Special`, `Event::Mouse` and `Event::CursorReporting` (`event.hpp` is
not among the sources).  Each carries the raw bytes it was decoded from;
`CursorReporting input x y` takes its arguments in the order of the call in
`Send`. -/
inductive Event where
  | Character (input : List Nat)
  | Special (input : List Nat)
  | Mouse (input : List Nat) (mouse : ftxui.Mouse)
  | CursorReporting (input : List Nat) (x y : Int)
  deriving DecidableEq, Repr

/-- A 32-bit `int` after an arithmetic operation: the result reduced to the
range `-2^31 .. 2^31 - 1`. -/
def wrapInt32 (v : Int) : Int :=
  (v + 2147483648) % 4294967296 - 2147483648

/-- The data members of `TerminalInputParser`; `out_` is the list of events
sent to the receiver so far, oldest first. -/
structure TerminalInputParser where
  out_ : List Event
  position_ : Int
  timeout_ : Int
  pending_ : List Nat
  deriving DecidableEq, Repr

/-- The decoder as constructed: nothing sent, nothing pending. -/
def TerminalInputParser.init : TerminalInputParser :=
  { out_ := [], position_ := -1, timeout_ := 0, pending_ := [] }

/-- `Current()`: the byte `pending_[position_]`, `none` outside the buffer. -/
def Current (p : TerminalInputParser) : Option Nat :=
  if 0 ≤ p.position_ then p.pending_[p.position_.toNat]? else none

/-- `Eat()`: `position_++`, then whether `position_ < pending_.size()`. -/
def Eat (p : TerminalInputParser) : Bool × TerminalInputParser :=
  let p1 := { p with position_ := p.position_ + 1 }
  (decide (p1.position_ < (p1.pending_.length : Int)), p1)

/-- `Send(output)`. -/
def Send (p : TerminalInputParser) (output : Output) : TerminalInputParser :=
  match output with
  | Output.UNCOMPLETED => p
  | Output.DROP => { p with pending_ := [] }
  | Output.CHARACTER =>
      { p with out_ := p.out_ ++ [Event.Character p.pending_], pending_ := [] }
  | Output.SPECIAL =>
      { p with out_ := p.out_ ++ [Event.Special p.pending_], pending_ := [] }
  | Output.MOUSE mouse =>
      { p with out_ := p.out_ ++ [Event.Mouse p.pending_ mouse], pending_ := [] }
  | Output.CURSOR_REPORTING cursor =>
      { p with out_ := p.out_ ++ [Event.CursorReporting p.pending_ cursor.x cursor.y],
               pending_ := [] }

/-- `Timeout(time)`. -/
def Timeout (p : TerminalInputParser) (time : Int) : TerminalInputParser :=
  let p1 := { p with timeout_ := wrapInt32 (p.timeout_ + time) }
  if p1.timeout_ < 50 then p1
  else
    let p2 := { p1 with timeout_ := 0 }
    if p2.pending_.length ≠ 0 then Send p2 Output.SPECIAL else p2

/-- One iteration of the first loop of `ParseUTF8`, on `(selector, first_zero)`:
`if (head & selector) { selector >>= 1; continue; } first_zero = i;`. -/
def ParseUTF8.scanStep (head : Nat) (st : Nat × Int) (i : Nat) : Nat × Int :=
  if head &&& st.1 ≠ 0 then ((st.1 >>> 1) % 256, st.2) else (st.1, (i : Int))

/-- The first loop of `ParseUTF8`: `for (int i = 0; i < 8; ++i)` from
`selector = 0b1000'0000`, `first_zero = 5`; the value of `first_zero` after it. -/
def ParseUTF8.firstZero (head : Nat) : Int :=
  ((List.range 8).foldl (ParseUTF8.scanStep head) (128, 5)).2

/-- The second loop of `ParseUTF8`: `for (int i = 2; i <= first_zero; ++i)`,
with the `return UNCOMPLETED` that follows it. -/
def ParseUTF8.loop (first_zero : Int) (i : Int) (p : TerminalInputParser) :
    Option (Output × TerminalInputParser) :=
  if h : i ≤ first_zero then
    if (Eat p).1 = false then some (Output.CHARACTER, (Eat p).2)
    else
      match Current (Eat p).2 with
      | none => none
      | some head =>
        if head &&& 192 ≠ 64 then some (Output.UNCOMPLETED, (Eat p).2)
        else if first_zero = i then some (Output.CHARACTER, (Eat p).2)
        else ParseUTF8.loop first_zero (i + 1) (Eat p).2
  else some (Output.UNCOMPLETED, p)
termination_by (first_zero + 1 - i).toNat
decreasing_by omega

/-- `ParseUTF8()`. -/
def ParseUTF8 (p : TerminalInputParser) : Option (Output × TerminalInputParser) :=
  match Current p with
  | none => none
  | some head =>
    let first_zero := ParseUTF8.firstZero head
    if first_zero = 0 then some (Output.CHARACTER, p)
    else if first_zero ≥ 5 then some (Output.UNCOMPLETED, p)
    else ParseUTF8.loop first_zero 2 p

/-- `ParseDCS()`: the `while (1)` loop. -/
def ParseDCS (p : TerminalInputParser) : Option (Output × TerminalInputParser) :=
  if h1 : (Eat p).1 = false then some (Output.UNCOMPLETED, (Eat p).2)
  else
    match Current (Eat p).2 with
    | none => none
    | some c1 =>
      if c1 ≠ 27 then ParseDCS (Eat p).2
      else if h2 : (Eat (Eat p).2).1 = false then
        some (Output.UNCOMPLETED, (Eat (Eat p).2).2)
      else
        match Current (Eat (Eat p).2).2 with
        | none => none
        | some c2 =>
          if c2 ≠ 92 then ParseDCS (Eat (Eat p).2).2
          else some (Output.SPECIAL, (Eat (Eat p).2).2)
termination_by ((p.pending_.length : Int) - p.position_).toNat
decreasing_by
  all_goals simp [Eat] at *
  all_goals omega

/-- `ParseOSC()`: the `while (true)` loop. -/
def ParseOSC (p : TerminalInputParser) : Option (Output × TerminalInputParser) :=
  if h1 : (Eat p).1 = false then some (Output.UNCOMPLETED, (Eat p).2)
  else
    match Current (Eat p).2 with
    | none => none
    | some c1 =>
      if c1 ≠ 27 then ParseOSC (Eat p).2
      else if h2 : (Eat (Eat p).2).1 = false then
        some (Output.UNCOMPLETED, (Eat (Eat p).2).2)
      else
        match Current (Eat (Eat p).2).2 with
        | none => none
        | some c2 =>
          if c2 ≠ 92 then ParseOSC (Eat (Eat p).2).2
          else some (Output.SPECIAL, (Eat (Eat p).2).2)
termination_by ((p.pending_.length : Int) - p.position_).toNat
decreasing_by
  all_goals simp [Eat] at *
  all_goals omega

/-- `ParseMouse(altered, pressed, arguments)`. -/
def ParseMouse (_altered : Bool) (pressed : Bool) (arguments : List Int) : Output :=
  if arguments.length ≠ 3 then Output.SPECIAL
  else
    Output.MOUSE
      { button := Int.land (arguments.getD 0 0) 3 +
                  (Int.land (arguments.getD 0 0) 64) >>> 4
        motion := Motion.ofBool pressed
        shift := decide (Int.land (arguments.getD 0 0) 4 ≠ 0)
        meta := decide (Int.land (arguments.getD 0 0) 8 ≠ 0)
        x := arguments.getD 1 0
        y := arguments.getD 2 0 }

/-- `ParseCursorReporting(arguments)`. -/
def ParseCursorReporting (arguments : List Int) : Output :=
  if arguments.length ≠ 2 then Output.SPECIAL
  else
    Output.CURSOR_REPORTING
      { y := arguments.getD 0 0
        x := arguments.getD 1 0 }

/-- The `while (true)` loop of `ParseCSI`, on the locals `altered`, `argument`
and `arguments`. -/
def ParseCSI.loop (p : TerminalInputParser) (altered : Bool) (argument : Int)
    (arguments : List Int) : Option (Output × TerminalInputParser) :=
  if h : (Eat p).1 = false then some (Output.UNCOMPLETED, (Eat p).2)
  else
    match Current (Eat p).2 with
    | none => none
    | some c =>
      if c = 60 then ParseCSI.loop (Eat p).2 true argument arguments
      else if 48 ≤ c ∧ c ≤ 57 then
        ParseCSI.loop (Eat p).2 altered
          (wrapInt32 (wrapInt32 (argument * 10) + ((c : Int) - 48))) arguments
      else if c = 59 then
        ParseCSI.loop (Eat p).2 altered 0 (arguments ++ [argument])
      else if 32 ≤ c ∧ c ≤ 126 ∧ c ≠ 60 then
        if c = 77 then
          some (ParseMouse altered true (arguments ++ [argument]), (Eat p).2)
        else if c = 109 then
          some (ParseMouse altered false (arguments ++ [argument]), (Eat p).2)
        else if c = 82 then
          some (ParseCursorReporting (arguments ++ [argument]), (Eat p).2)
        else some (Output.SPECIAL, (Eat p).2)
      else if c = 27 then some (Output.SPECIAL, (Eat p).2)
      else ParseCSI.loop (Eat p).2 altered argument arguments
termination_by ((p.pending_.length : Int) - p.position_).toNat
decreasing_by
  all_goals simp [Eat] at *
  all_goals omega

/-- `ParseCSI()`. -/
def ParseCSI (p : TerminalInputParser) : Option (Output × TerminalInputParser) :=
  ParseCSI.loop p false 0 []

/-- `ParseESC()`. -/
def ParseESC (p : TerminalInputParser) : Option (Output × TerminalInputParser) :=
  if (Eat p).1 = false then some (Output.UNCOMPLETED, (Eat p).2)
  else
    match Current (Eat p).2 with
    | none => none
    | some c =>
      if c = 80 then ParseDCS (Eat p).2
      else if c = 91 then ParseCSI (Eat p).2
      else if c = 93 then ParseOSC (Eat p).2
      else if (Eat (Eat p).2).1 = false then
        some (Output.UNCOMPLETED, (Eat (Eat p).2).2)
      else some (Output.SPECIAL, (Eat (Eat p).2).2)

/-- `Parse()`. -/
def Parse (p : TerminalInputParser) : Option (Output × TerminalInputParser) :=
  if (Eat p).1 = false then some (Output.UNCOMPLETED, (Eat p).2)
  else
    match Current (Eat p).2 with
    | none => none
    | some c =>
      if c = 24 ∨ c = 26 then some (Output.DROP, (Eat p).2)
      else if c = 27 then ParseESC (Eat p).2
      else if c < 32 then some (Output.SPECIAL, (Eat p).2)
      else if c = 127 then some (Output.SPECIAL, (Eat p).2)
      else ParseUTF8 (Eat p).2

/-- `Add(c)`. -/
def Add (p : TerminalInputParser) (c : Nat) : Option TerminalInputParser :=
  match Parse { p with pending_ := p.pending_ ++ [c], timeout_ := 0, position_ := -1 } with
  | none => none
  | some (output, p1) => some (Send p1 output)

/-- `Add` called once per byte of `cs`, in order. -/
def AddAll (p : TerminalInputParser) : List Nat → Option TerminalInputParser
  | [] => some p
  | c :: cs =>
    match Add p c with
    | none => none
    | some p1 => AddAll p1 cs

/-- `Timeout` called once per increment of `ts`, in order. -/
def TimeoutAll (p : TerminalInputParser) : List Int → TerminalInputParser
  | [] => p
  | t :: ts => TimeoutAll (Timeout p t) ts

/-- No signed overflow in a run of timeouts: every addition `timeout_ += time` made
by the calls `Timeout(t)`, `t` in `ts` in order, starting from `p`, has its result in
the range of `int`. -/
def TimeoutsInRange (p : TerminalInputParser) : List Int → Prop
  | [] => True
  | t :: ts =>
    (-2147483648 ≤ p.timeout_ + t ∧ p.timeout_ + t < 2147483648) ∧
      TimeoutsInRange (Timeout p t) ts

/-- The decimal numeral of `n` as ASCII bytes, most significant digit first,
without leading zeros (`0` is written `0`). -/
def decimal (n : Nat) : List Nat :=
  if n < 10 then [48 + n] else decimal (n / 10) ++ [48 + n % 10]

/-- The SGR mouse report `ESC [ < a0 ; a1 ; a2 t`, arguments as decimal numerals. -/
def sgrMouseBytes (a0 a1 a2 t : Nat) : List Nat :=
  [27, 91, 60] ++ decimal a0 ++ [59] ++ decimal a1 ++ [59] ++ decimal a2 ++ [t]

/-- The cursor position report `ESC [ r ; c R`, arguments as decimal numerals. -/
def cursorReportBytes (r c : Nat) : List Nat :=
  [27, 91] ++ decimal r ++ [59] ++ decimal c ++ [82]

/-- The bytes of `pending_` that `Eat` has not reached yet. -/
def remaining (p : TerminalInputParser) : List Nat :=
  p.pending_.drop (p.position_ + 1).toNat

/-- The value `ParseCSI.loop` leaves in `argument` after eating the digits `ds`. -/
def accumulate (argument : Int) : List Nat → Int
  | [] => argument
  | d :: ds => accumulate (wrapInt32 (wrapInt32 (argument * 10) + ((d : Int) - 48))) ds

/-- The outcome of `ParseDCS` and of `ParseOSC` as a function of the bytes not
yet eaten (`ParseDCS_eq`, `ParseOSC_eq`). -/
def outcomeST : List Nat → Output
  | [] => Output.UNCOMPLETED
  | [_] => Output.UNCOMPLETED
  | c1 :: c2 :: rest =>
    if c1 ≠ 27 then outcomeST (c2 :: rest)
    else if c2 ≠ 92 then outcomeST rest
    else Output.SPECIAL

/-- The outcome of `ParseCSI.loop` as a function of the bytes not yet eaten
(`ParseCSI_loop_eq`). -/
def outcomeCSI : List Nat → Bool → Int → List Int → Output
  | [], _, _, _ => Output.UNCOMPLETED
  | c :: rest, altered, argument, arguments =>
    if c = 60 then outcomeCSI rest true argument arguments
    else if 48 ≤ c ∧ c ≤ 57 then
      outcomeCSI rest altered
        (wrapInt32 (wrapInt32 (argument * 10) + ((c : Int) - 48))) arguments
    else if c = 59 then outcomeCSI rest altered 0 (arguments ++ [argument])
    else if 32 ≤ c ∧ c ≤ 126 ∧ c ≠ 60 then
      if c = 77 then ParseMouse altered true (arguments ++ [argument])
      else if c = 109 then ParseMouse altered false (arguments ++ [argument])
      else if c = 82 then ParseCursorReporting (arguments ++ [argument])
      else Output.SPECIAL
    else if c = 27 then Output.SPECIAL
    else outcomeCSI rest altered argument arguments

/-- The outcome of `ParseESC` as a function of the bytes that follow the
escape byte (`ParseESC_eq`). -/
def outcomeESC : List Nat → Output
  | [] => Output.UNCOMPLETED
  | c :: rest =>
    if c = 80 then outcomeST rest
    else if c = 91 then outcomeCSI rest false 0 []
    else if c = 93 then outcomeST rest
    else
      match rest with
      | [] => Output.UNCOMPLETED
      | _ :: _ => Output.SPECIAL

/-- The outcome of `Parse` as a function of the pending buffer (`Parse_eq`);
the last case is `ParseUTF8`, which returns `UNCOMPLETED` on every byte
(`ParseUTF8_eq`). -/
def outcome : List Nat → Output
  | [] => Output.UNCOMPLETED
  | c :: rest =>
    if c = 24 ∨ c = 26 then Output.DROP
    else if c = 27 then outcomeESC rest
    else if c < 32 then Output.SPECIAL
    else if c = 127 then Output.SPECIAL
    else Output.UNCOMPLETED

/-- One call of the two inputs of the decoder: `Add(c)` or `Timeout(time)`. -/
inductive Call where
  | add (c : Nat)
  | timeout (time : Int)
  deriving DecidableEq, Repr

/-- The decoder after one call. -/
def applyCall (p : TerminalInputParser) : Call → Option TerminalInputParser
  | Call.add c => Add p c
  | Call.timeout time => some (Timeout p time)

/-- The decoder after a sequence of calls, in order. -/
def run (p : TerminalInputParser) : List Call → Option TerminalInputParser
  | [] => some p
  | call :: calls =>
    match applyCall p call with
    | none => none
    | some p1 => run p1 calls

/-- The bytes passed to `Add` by a sequence of calls, in order. -/
def addedBytes : List Call → List Nat
  | [] => []
  | Call.add c :: calls => c :: addedBytes calls
  | Call.timeout _ :: calls => addedBytes calls

/-- The raw bytes an event carries (the `std::string` given to its constructor). -/
def Event.input : Event → List Nat
  | Event.Character input => input
  | Event.Special input => input
  | Event.Mouse input _ => input
  | Event.CursorReporting input _ _ => input

/-- A span of bytes that left the pending buffer: sent as an event, or dropped. -/
inductive Resolved where
  | sent (event : Event)
  | dropped (span : List Nat)
  deriving DecidableEq, Repr

/-- The bytes of a resolved span. -/
def Resolved.bytes : Resolved → List Nat
  | Resolved.sent event => event.input
  | Resolved.dropped span => span

/-- The event of a resolved span, when it was sent. -/
def Resolved.event : Resolved → Option Event
  | Resolved.sent event => some event
  | Resolved.dropped _ => none

/-- What one call resolves: the events it appends to `out_`, and, for an `Add`
whose `Parse` returns `DROP`, the buffer that `Send` clears. -/
def resolvedBy (p : TerminalInputParser) : Call → List Resolved
  | Call.add c =>
    match Parse { p with pending_ := p.pending_ ++ [c], timeout_ := 0, position_ := -1 } with
    | none => []
    | some (Output.DROP, p1) => [Resolved.dropped p1.pending_]
    | some (output, p1) => ((Send p1 output).out_.drop p1.out_.length).map Resolved.sent
  | Call.timeout time => ((Timeout p time).out_.drop p.out_.length).map Resolved.sent

/-- What a sequence of calls resolves, in order. -/
def resolvedLog (p : TerminalInputParser) : List Call → List Resolved
  | [] => []
  | call :: calls =>
    resolvedBy p call ++
      (match applyCall p call with
       | none => []
       | some p1 => resolvedLog p1 calls)

/-! ## The scanner -/

theorem Eat_fst (p : TerminalInputParser) :
    (Eat p).1 = decide (p.position_ + 1 < (p.pending_.length : Int)) := rfl

theorem Eat_snd (p : TerminalInputParser) :
    (Eat p).2 = { p with position_ := p.position_ + 1 } := rfl

theorem eat_nil {p : TerminalInputParser} (h0 : -1 ≤ p.position_)
    (h : remaining p = []) : (Eat p).1 = false := by
  simp only [remaining, List.drop_eq_nil_iff] at h
  simp only [Eat_fst, decide_eq_false_iff_not]
  omega

theorem eat_cons {p : TerminalInputParser} {c : Nat} {rest : List Nat}
    (h0 : -1 ≤ p.position_) (h : remaining p = c :: rest) :
    (Eat p).1 = true ∧ Current (Eat p).2 = some c ∧ -1 ≤ (Eat p).2.position_ ∧
      remaining (Eat p).2 = rest := by
  simp only [remaining] at h
  have hlt : (p.position_ + 1).toNat < p.pending_.length := by
    by_contra hge
    rw [List.drop_eq_nil_of_le (by omega)] at h
    cases h
  have hget : p.pending_[(p.position_ + 1).toNat]? = some c := by
    rw [← List.head?_drop, h]; rfl
  refine ⟨?_, ?_, ?_, ?_⟩
  · simp only [Eat_fst, decide_eq_true_eq]; omega
  · simp only [Current, Eat_snd]
    rw [if_pos (by omega), hget]
  · simp only [Eat_snd]; omega
  · simp only [remaining, Eat_snd]
    have : (p.position_ + 1 + 1).toNat = (p.position_ + 1).toNat + 1 := by omega
    rw [this, ← List.drop_drop, h]
    rfl

/-! ## The outcome of each parsing function, by the bytes not yet eaten -/

theorem scanStep_inv (head : Nat) (st : Nat × Int) (i : Nat)
    (h : st.2 = 5 ∨ head &&& st.1 = 0) :
    (ParseUTF8.scanStep head st i).2 = 5 ∨
      (head &&& (ParseUTF8.scanStep head st i).1 = 0 ∧
        (ParseUTF8.scanStep head st i).2 = (i : Int)) := by
  unfold ParseUTF8.scanStep
  by_cases hz : head &&& st.1 = 0
  · rw [if_neg (by simpa using hz)]
    exact Or.inr ⟨hz, rfl⟩
  · rw [if_pos hz]
    rcases h with h | h
    · exact Or.inl h
    · exact absurd h hz

theorem scanFold_inv (head : Nat) (l : List Nat) : ∀ st : Nat × Int,
    (st.2 = 5 ∨ head &&& st.1 = 0) →
    ((l.foldl (ParseUTF8.scanStep head) st).2 = 5 ∨
      head &&& (l.foldl (ParseUTF8.scanStep head) st).1 = 0) := by
  induction l with
  | nil => intro st h; exact h
  | cons i l ih =>
    intro st h
    rw [List.foldl_cons]
    apply ih
    rcases scanStep_inv head st i h with h1 | ⟨h1, _⟩
    · exact Or.inl h1
    · exact Or.inr h1

theorem firstZero_eq (head : Nat) :
    ParseUTF8.firstZero head = 5 ∨ ParseUTF8.firstZero head = 7 := by
  unfold ParseUTF8.firstZero
  rw [List.range_succ, List.foldl_append]
  simp only [List.foldl_cons, List.foldl_nil]
  rcases scanStep_inv head _ 7 (scanFold_inv head (List.range 7) (128, 5) (Or.inl rfl))
    with h | ⟨_, h⟩
  · exact Or.inl h
  · exact Or.inr h

theorem ParseUTF8_eq (p : TerminalInputParser) (head : Nat) (h : Current p = some head) :
    ParseUTF8 p = some (Output.UNCOMPLETED, p) := by
  have h5 := firstZero_eq head
  simp only [ParseUTF8, h]
  rw [if_neg (by omega), if_pos (by omega)]

theorem ParseDCS_eq_aux (n : Nat) : ∀ p : TerminalInputParser, (remaining p).length ≤ n →
    -1 ≤ p.position_ →
    ∃ pos, ParseDCS p = some (outcomeST (remaining p), { p with position_ := pos }) := by
  induction n using Nat.strong_induction_on with
  | _ n ih =>
    intro p hn h0
    rcases hrem : remaining p with _ | ⟨c1, rest⟩
    · rw [ParseDCS, dif_pos (eat_nil h0 hrem)]
      exact ⟨_, rfl⟩
    · obtain ⟨e1, e2, e3, e4⟩ := eat_cons h0 hrem
      rw [hrem] at hn
      simp only [List.length_cons] at hn
      rw [ParseDCS, dif_neg (by simp [e1])]
      simp only [e2]
      by_cases hc1 : c1 = 27
      · rw [if_neg (by simpa using hc1)]
        rcases rest with _ | ⟨c2, rest2⟩
        · rw [dif_pos (eat_nil e3 e4)]
          exact ⟨_, rfl⟩
        · obtain ⟨f1, f2, f3, f4⟩ := eat_cons e3 e4
          simp only [List.length_cons] at hn
          rw [dif_neg (by simp [f1])]
          simp only [f2]
          by_cases hc2 : c2 = 92
          · rw [if_neg (by simpa using hc2)]
            simp only [outcomeST, hc1, hc2, ne_eq, not_true_eq_false, if_false]
            exact ⟨_, rfl⟩
          · rw [if_pos hc2]
            obtain ⟨pos, hpos⟩ := ih rest2.length (by omega) (Eat (Eat p).2).2
              (by rw [f4]) f3
            rw [hpos, f4]
            simp only [outcomeST, hc1, hc2, ne_eq, not_true_eq_false, if_false,
              not_false_eq_true, if_true]
            exact ⟨pos, rfl⟩
      · rw [if_pos hc1]
        obtain ⟨pos, hpos⟩ := ih rest.length (by omega) (Eat p).2 (by rw [e4]) e3
        rw [hpos, e4]
        rcases rest with _ | ⟨c2, rest2⟩
        · simp only [outcomeST]
          exact ⟨pos, rfl⟩
        · simp only [outcomeST, hc1, ne_eq, not_false_eq_true, if_true]
          exact ⟨pos, rfl⟩

theorem ParseOSC_eq_aux (n : Nat) : ∀ p : TerminalInputParser, (remaining p).length ≤ n →
    -1 ≤ p.position_ →
    ∃ pos, ParseOSC p = some (outcomeST (remaining p), { p with position_ := pos }) := by
  induction n using Nat.strong_induction_on with
  | _ n ih =>
    intro p hn h0
    rcases hrem : remaining p with _ | ⟨c1, rest⟩
    · rw [ParseOSC, dif_pos (eat_nil h0 hrem)]
      exact ⟨_, rfl⟩
    · obtain ⟨e1, e2, e3, e4⟩ := eat_cons h0 hrem
      rw [hrem] at hn
      simp only [List.length_cons] at hn
      rw [ParseOSC, dif_neg (by simp [e1])]
      simp only [e2]
      by_cases hc1 : c1 = 27
      · rw [if_neg (by simpa using hc1)]
        rcases rest with _ | ⟨c2, rest2⟩
        · rw [dif_pos (eat_nil e3 e4)]
          exact ⟨_, rfl⟩
        · obtain ⟨f1, f2, f3, f4⟩ := eat_cons e3 e4
          simp only [List.length_cons] at hn
          rw [dif_neg (by simp [f1])]
          simp only [f2]
          by_cases hc2 : c2 = 92
          · rw [if_neg (by simpa using hc2)]
            simp only [outcomeST, hc1, hc2, ne_eq, not_true_eq_false, if_false]
            exact ⟨_, rfl⟩
          · rw [if_pos hc2]
            obtain ⟨pos, hpos⟩ := ih rest2.length (by omega) (Eat (Eat p).2).2
              (by rw [f4]) f3
            rw [hpos, f4]
            simp only [outcomeST, hc1, hc2, ne_eq, not_true_eq_false, if_false,
              not_false_eq_true, if_true]
            exact ⟨pos, rfl⟩
      · rw [if_pos hc1]
        obtain ⟨pos, hpos⟩ := ih rest.length (by omega) (Eat p).2 (by rw [e4]) e3
        rw [hpos, e4]
        rcases rest with _ | ⟨c2, rest2⟩
        · simp only [outcomeST]
          exact ⟨pos, rfl⟩
        · simp only [outcomeST, hc1, ne_eq, not_false_eq_true, if_true]
          exact ⟨pos, rfl⟩

theorem ParseDCS_eq (p : TerminalInputParser) (h0 : -1 ≤ p.position_) :
    ∃ pos, ParseDCS p = some (outcomeST (remaining p), { p with position_ := pos }) :=
  ParseDCS_eq_aux _ p (le_refl _) h0

theorem ParseOSC_eq (p : TerminalInputParser) (h0 : -1 ≤ p.position_) :
    ∃ pos, ParseOSC p = some (outcomeST (remaining p), { p with position_ := pos }) :=
  ParseOSC_eq_aux _ p (le_refl _) h0

theorem ParseCSI_loop_eq (rest : List Nat) : ∀ (p : TerminalInputParser) (altered : Bool)
    (argument : Int) (arguments : List Int), remaining p = rest → -1 ≤ p.position_ →
    ∃ pos, ParseCSI.loop p altered argument arguments =
      some (outcomeCSI rest altered argument arguments, { p with position_ := pos }) := by
  induction rest with
  | nil =>
    intro p altered argument arguments hrem h0
    rw [ParseCSI.loop, dif_pos (eat_nil h0 hrem)]
    exact ⟨_, rfl⟩
  | cons c rest ih =>
    intro p altered argument arguments hrem h0
    obtain ⟨e1, e2, e3, e4⟩ := eat_cons h0 hrem
    rw [ParseCSI.loop, dif_neg (by simp [e1])]
    simp only [e2, outcomeCSI]
    split_ifs
    all_goals first
      | exact ⟨_, rfl⟩
      | (obtain ⟨pos, hpos⟩ := ih (Eat p).2 _ _ _ e4 e3
         rw [hpos]
         exact ⟨pos, rfl⟩)

theorem ParseCSI_eq (p : TerminalInputParser) (h0 : -1 ≤ p.position_) :
    ∃ pos, ParseCSI p = some (outcomeCSI (remaining p) false 0 [], { p with position_ := pos }) :=
  ParseCSI_loop_eq _ p false 0 [] rfl h0

theorem ParseESC_eq (p : TerminalInputParser) (h0 : -1 ≤ p.position_) :
    ∃ pos, ParseESC p = some (outcomeESC (remaining p), { p with position_ := pos }) := by
  rcases hrem : remaining p with _ | ⟨c, rest⟩
  · rw [ParseESC, if_pos (eat_nil h0 hrem)]
    exact ⟨_, rfl⟩
  · obtain ⟨e1, e2, e3, e4⟩ := eat_cons h0 hrem
    rw [ParseESC, if_neg (by simp [e1])]
    simp only [e2, outcomeESC]
    split_ifs with h80 h91 h93
    · obtain ⟨pos, hpos⟩ := ParseDCS_eq (Eat p).2 e3
      rw [hpos, e4]
      exact ⟨pos, rfl⟩
    · obtain ⟨pos, hpos⟩ := ParseCSI_eq (Eat p).2 e3
      rw [hpos, e4]
      exact ⟨pos, rfl⟩
    · obtain ⟨pos, hpos⟩ := ParseOSC_eq (Eat p).2 e3
      rw [hpos, e4]
      exact ⟨pos, rfl⟩
    · rcases rest with _ | ⟨c2, rest2⟩
      · exact ⟨_, rfl⟩
      · obtain ⟨f1, _, _, _⟩ := eat_cons e3 e4
        simp_all
    · rcases rest with _ | ⟨c2, rest2⟩
      · have := eat_nil e3 e4
        contradiction
      · exact ⟨_, rfl⟩

theorem Parse_eq_aux (p : TerminalInputParser) (h0 : p.position_ = -1) (buf : List Nat)
    (hpend : p.pending_ = buf) :
    ∃ pos, Parse p = some (outcome buf, { p with position_ := pos }) := by
  have hr : remaining p = buf := by simp [remaining, h0, hpend]
  have h1 : -1 ≤ p.position_ := by omega
  rcases buf with _ | ⟨c, rest⟩
  · rw [Parse, if_pos (eat_nil h1 hr)]
    exact ⟨_, rfl⟩
  · obtain ⟨e1, e2, e3, e4⟩ := eat_cons h1 hr
    rw [Parse, if_neg (by simp [e1])]
    simp only [e2, outcome]
    split_ifs with h24 h27 h32 h127
    · exact ⟨_, rfl⟩
    · obtain ⟨pos, hpos⟩ := ParseESC_eq (Eat p).2 e3
      rw [hpos, e4]
      exact ⟨pos, rfl⟩
    · exact ⟨_, rfl⟩
    · exact ⟨_, rfl⟩
    · rw [ParseUTF8_eq _ c e2]
      exact ⟨_, rfl⟩

theorem Parse_eq (p : TerminalInputParser) (h0 : p.position_ = -1) :
    ∃ pos, Parse p = some (outcome p.pending_, { p with position_ := pos }) :=
  Parse_eq_aux p h0 p.pending_ rfl

theorem Add_eq (p : TerminalInputParser) (c : Nat) :
    ∃ pos, Add p c = some (Send ⟨p.out_, pos, 0, p.pending_ ++ [c]⟩
      (outcome (p.pending_ ++ [c]))) := by
  obtain ⟨pos, hpos⟩ := Parse_eq
    { p with pending_ := p.pending_ ++ [c], timeout_ := 0, position_ := -1 } rfl
  refine ⟨pos, ?_⟩
  simp only [Add, hpos]

/-! ## Sequences of calls -/

theorem AddAll_append (l1 : List Nat) : ∀ (p : TerminalInputParser) (l2 : List Nat),
    AddAll p (l1 ++ l2) = (AddAll p l1).bind (fun p1 => AddAll p1 l2) := by
  induction l1 with
  | nil => intro p l2; rfl
  | cons c cs ih =>
    intro p l2
    simp only [List.cons_append, AddAll]
    cases Add p c with
    | none => rfl
    | some p1 => exact ih p1 l2

theorem AddAll_uncompleted (bytes : List Nat) : ∀ p : TerminalInputParser,
    (∀ k, 0 < k → k ≤ bytes.length →
      outcome (p.pending_ ++ bytes.take k) = Output.UNCOMPLETED) →
    ∃ p1, AddAll p bytes = some p1 ∧ p1.out_ = p.out_ ∧
      p1.pending_ = p.pending_ ++ bytes := by
  induction bytes with
  | nil => intro p _; exact ⟨p, rfl, rfl, by simp⟩
  | cons c cs ih =>
    intro p h
    obtain ⟨pos, hadd⟩ := Add_eq p c
    have h1 : outcome (p.pending_ ++ [c]) = Output.UNCOMPLETED := by
      simpa using h 1 (by omega) (by simp)
    rw [h1] at hadd
    obtain ⟨p1, e1, e2, e3⟩ := ih ⟨p.out_, pos, 0, p.pending_ ++ [c]⟩ (by
      intro k hk hk2
      have := h (k + 1) (by omega) (by simpa using hk2)
      simpa using this)
    refine ⟨p1, ?_, e2, ?_⟩
    · simp only [AddAll, hadd, Send]
      exact e1
    · simpa using e3

/-! ## Decimal numerals and CSI arguments -/

theorem wrapInt32_of_range (v : Int) (h0 : 0 ≤ v) (h1 : v < 2147483648) : wrapInt32 v = v := by
  unfold wrapInt32
  omega

theorem decimal_examples :
    decimal 0 = [48] ∧ decimal 5 = [53] ∧ decimal 7 = [55] ∧ decimal 10 = [49, 48] ∧
      decimal 12 = [49, 50] ∧ decimal 20 = [50, 48] ∧ decimal 32 = [51, 50] := by
  refine ⟨?_, ?_, ?_, ?_, ?_, ?_, ?_⟩ <;> simp [decimal]

theorem decimal_digit (n : Nat) : ∀ d ∈ decimal n, 48 ≤ d ∧ d ≤ 57 := by
  induction n using Nat.strong_induction_on with
  | _ n ih =>
    intro d hd
    rw [decimal] at hd
    split_ifs at hd with hlt
    · simp only [List.mem_singleton] at hd
      omega
    · rcases List.mem_append.mp hd with h | h
      · exact ih (n / 10) (by omega) d h
      · simp only [List.mem_singleton] at h
        omega

theorem accumulate_append (l1 : List Nat) : ∀ (a : Int) (l2 : List Nat),
    accumulate a (l1 ++ l2) = accumulate (accumulate a l1) l2 := by
  induction l1 with
  | nil => intro a l2; rfl
  | cons d ds ih => intro a l2; exact ih _ l2

theorem accumulate_decimal (n : Nat) (h : n < 2147483648) :
    accumulate 0 (decimal n) = (n : Int) := by
  induction n using Nat.strong_induction_on with
  | _ n ih =>
    rw [decimal]
    split_ifs with hlt
    · simp only [accumulate]
      rw [wrapInt32_of_range (0 * 10) (by omega) (by omega),
        wrapInt32_of_range _ (by omega) (by omega)]
      omega
    · rw [accumulate_append, ih (n / 10) (by omega) (by omega)]
      simp only [accumulate]
      have e1 : wrapInt32 (((n / 10 : Nat) : Int) * 10) = ((n / 10 : Nat) : Int) * 10 :=
        wrapInt32_of_range _ (by omega) (by omega)
      rw [e1, wrapInt32_of_range _ (by omega) (by omega)]
      omega

theorem outcomeCSI_digits (ds : List Nat) (hds : ∀ d ∈ ds, 48 ≤ d ∧ d ≤ 57) :
    ∀ (rest : List Nat) (altered : Bool) (argument : Int) (arguments : List Int),
    outcomeCSI (ds ++ rest) altered argument arguments =
      outcomeCSI rest altered (accumulate argument ds) arguments := by
  induction ds with
  | nil => intro rest altered argument arguments; rfl
  | cons d ds ih =>
    intro rest altered argument arguments
    have hd := hds d (List.mem_cons_self _ _)
    simp only [List.cons_append, outcomeCSI, accumulate]
    rw [if_neg (by omega), if_pos hd]
    exact ih (fun x hx => hds x (List.mem_cons_of_mem _ hx)) _ _ _ _

theorem outcomeCSI_decimal (n : Nat) (h : n < 2147483648) (rest : List Nat) (altered : Bool)
    (arguments : List Int) :
    outcomeCSI (decimal n ++ rest) altered 0 arguments =
      outcomeCSI rest altered (n : Int) arguments := by
  rw [outcomeCSI_digits _ (decimal_digit n), accumulate_decimal n h]

theorem outcomeCSI_params (l : List Nat)
    (hl : ∀ c ∈ l, c = 60 ∨ (48 ≤ c ∧ c ≤ 57) ∨ c = 59) :
    ∀ (altered : Bool) (argument : Int) (arguments : List Int),
    outcomeCSI l altered argument arguments = Output.UNCOMPLETED := by
  induction l with
  | nil => intro altered argument arguments; rfl
  | cons c l ih =>
    intro altered argument arguments
    have hc := hl c (List.mem_cons_self _ _)
    have ih2 := ih (fun x hx => hl x (List.mem_cons_of_mem _ hx))
    simp only [outcomeCSI]
    split_ifs <;> first | exact ih2 _ _ _ | omega

theorem outcome_csi_take (params : List Nat)
    (hl : ∀ c ∈ params, c = 60 ∨ (48 ≤ c ∧ c ≤ 57) ∨ c = 59) (k : Nat) :
    outcome ((27 :: 91 :: params).take k) = Output.UNCOMPLETED := by
  rcases k with _ | _ | k
  · rfl
  · rfl
  · simp only [List.take_succ_cons, outcome, outcomeESC]
    simp only [show ¬ ((27 : Nat) = 24 ∨ (27 : Nat) = 26) by omega, if_false, if_true,
      show ¬ ((91 : Nat) = 80) by omega]
    exact outcomeCSI_params _ (fun c hc => hl c (List.mem_of_mem_take hc)) _ _ _


theorem ParseMouse_three (altered pressed : Bool) (a0 a1 a2 : Nat) :
    ParseMouse altered pressed [(a0 : Int), (a1 : Int), (a2 : Int)] =
      Output.MOUSE
        { button := (((a0 &&& 3) + ((a0 &&& 64) >>> 4) : Nat) : Int)
          motion := Motion.ofBool pressed
          shift := decide (a0 &&& 4 ≠ 0)
          meta := decide (a0 &&& 8 ≠ 0)
          x := (a1 : Int)
          y := (a2 : Int) } := by
  have e3 : Int.land (a0 : Int) 3 = ((a0 &&& 3 : Nat) : Int) := rfl
  have e64 : (Int.land (a0 : Int) 64) >>> 4 = (((a0 &&& 64) >>> 4 : Nat) : Int) := rfl
  have e4 : Int.land (a0 : Int) 4 = ((a0 &&& 4 : Nat) : Int) := rfl
  have e8 : Int.land (a0 : Int) 8 = ((a0 &&& 8 : Nat) : Int) := rfl
  simp only [ParseMouse, List.length_cons, List.length_nil, List.getD_cons_zero,
    List.getD_cons_succ, e3, e64, e4, e8]
  simp

theorem outcome_sgrMouseBytes_last (a0 a1 a2 t : Nat) (h0 : a0 < 2 ^ 31) (h1 : a1 < 2 ^ 31)
    (h2 : a2 < 2 ^ 31) :
    ∀ rhs, outcomeCSI [t] true (a2 : Int) [(a0 : Int), (a1 : Int)] = rhs →
      outcome (sgrMouseBytes a0 a1 a2 t) = rhs := by
  intro rhs hrhs
  have e : sgrMouseBytes a0 a1 a2 t =
      27 :: 91 :: 60 :: (decimal a0 ++ 59 :: (decimal a1 ++ 59 :: (decimal a2 ++ [t]))) := by
    simp [sgrMouseBytes]
  rw [e]
  simp only [outcome, outcomeESC, outcomeCSI]
  norm_num
  rw [outcomeCSI_decimal a0 (by omega)]
  simp only [outcomeCSI]
  norm_num
  rw [outcomeCSI_decimal a1 (by omega)]
  simp only [outcomeCSI]
  norm_num
  rw [outcomeCSI_decimal a2 (by omega)]
  exact hrhs

theorem outcome_sgrMouseBytes (a0 a1 a2 t : Nat) (h0 : a0 < 2 ^ 31) (h1 : a1 < 2 ^ 31)
    (h2 : a2 < 2 ^ 31) (ht : t = 77 ∨ t = 109) :
    outcome (sgrMouseBytes a0 a1 a2 t) =
      Output.MOUSE
        { button := (((a0 &&& 3) + ((a0 &&& 64) >>> 4) : Nat) : Int)
          motion := if t = 77 then Motion.Pressed else Motion.Released
          shift := decide (a0 &&& 4 ≠ 0)
          meta := decide (a0 &&& 8 ≠ 0)
          x := (a1 : Int)
          y := (a2 : Int) } := by
  apply outcome_sgrMouseBytes_last a0 a1 a2 t h0 h1 h2
  rcases ht with ht | ht
  · subst ht
    exact (ParseMouse_three true true a0 a1 a2).trans rfl
  · subst ht
    exact (ParseMouse_three true false a0 a1 a2).trans rfl

theorem sgrMouseBytes_eq (a0 a1 a2 t : Nat) :
    sgrMouseBytes a0 a1 a2 t =
      (27 :: 91 :: (60 :: (decimal a0 ++ 59 :: (decimal a1 ++ 59 :: decimal a2)))) ++ [t] := by
  simp [sgrMouseBytes]

theorem sgrMouse_params (a0 a1 a2 : Nat) :
    ∀ c ∈ 60 :: (decimal a0 ++ 59 :: (decimal a1 ++ 59 :: decimal a2)),
      c = 60 ∨ (48 ≤ c ∧ c ≤ 57) ∨ c = 59 := by
  intro c hc
  simp only [List.mem_cons, List.mem_append] at hc
  rcases hc with h | h | h | h | h | h
  · exact Or.inl h
  · exact Or.inr (Or.inl (decimal_digit a0 c h))
  · exact Or.inr (Or.inr h)
  · exact Or.inr (Or.inl (decimal_digit a1 c h))
  · exact Or.inr (Or.inr h)
  · exact Or.inr (Or.inl (decimal_digit a2 c h))

/-- If no proper non-empty initial part of `body ++ [t]` resolves, feeding it byte by
byte into an empty buffer sends nothing before the last byte, and the last byte is
resolved against the whole of `body ++ [t]`. -/
theorem AddAll_sequence (body : List Nat) (t : Nat) (p : TerminalInputParser)
    (hp : p.pending_ = [])
    (hbody : ∀ k, outcome (body.take k) = Output.UNCOMPLETED) :
    (∀ k, k < (body ++ [t]).length →
      ∃ pk, AddAll p ((body ++ [t]).take k) = some pk ∧ pk.out_ = p.out_ ∧
        pk.pending_ = (body ++ [t]).take k) ∧
    ∃ pos, AddAll p (body ++ [t]) =
      some (Send ⟨p.out_, pos, 0, body ++ [t]⟩ (outcome (body ++ [t]))) := by
  have hpre : ∀ k, ∃ pk, AddAll p (body.take k) = some pk ∧ pk.out_ = p.out_ ∧
      pk.pending_ = body.take k := by
    intro k
    obtain ⟨pk, e1, e2, e3⟩ := AddAll_uncompleted (body.take k) p (by
      intro j _ _
      rw [hp, List.nil_append, List.take_take]
      exact hbody _)
    exact ⟨pk, e1, e2, by rw [e3, hp, List.nil_append]⟩
  constructor
  · intro k hk
    have hk2 : k ≤ body.length := by
      simp only [List.length_append, List.length_singleton] at hk
      omega
    rw [List.take_append_of_le_length hk2]
    exact hpre k
  · obtain ⟨pk, e1, e2, e3⟩ := hpre body.length
    rw [List.take_length] at e1 e3
    obtain ⟨pos, hadd⟩ := Add_eq pk t
    refine ⟨pos, ?_⟩
    rw [AddAll_append, e1]
    simp only [Option.some_bind, AddAll, hadd, e2, e3]


theorem cursorReportBytes_eq (r c : Nat) :
    cursorReportBytes r c = (27 :: 91 :: (decimal r ++ 59 :: decimal c)) ++ [82] := by
  simp [cursorReportBytes]

theorem cursorReport_params (r c : Nat) :
    ∀ x ∈ decimal r ++ 59 :: decimal c, x = 60 ∨ (48 ≤ x ∧ x ≤ 57) ∨ x = 59 := by
  intro x hx
  simp only [List.mem_cons, List.mem_append] at hx
  rcases hx with h | h | h
  · exact Or.inr (Or.inl (decimal_digit r x h))
  · exact Or.inr (Or.inr h)
  · exact Or.inr (Or.inl (decimal_digit c x h))

theorem outcome_cursorReportBytes_last (r c : Nat) (hr : r < 2 ^ 31) (hc : c < 2 ^ 31) :
    ∀ rhs, outcomeCSI [82] false (c : Int) [(r : Int)] = rhs →
      outcome (cursorReportBytes r c) = rhs := by
  intro rhs hrhs
  have e : cursorReportBytes r c = 27 :: 91 :: (decimal r ++ 59 :: (decimal c ++ [82])) := by
    simp [cursorReportBytes]
  rw [e]
  simp only [outcome, outcomeESC]
  norm_num
  rw [outcomeCSI_decimal r (by omega)]
  simp only [outcomeCSI]
  norm_num
  rw [outcomeCSI_decimal c (by omega)]
  exact hrhs

theorem outcome_cursorReportBytes (r c : Nat) (hr : r < 2 ^ 31) (hc : c < 2 ^ 31) :
    outcome (cursorReportBytes r c) =
      Output.CURSOR_REPORTING { x := (c : Int), y := (r : Int) } :=
  outcome_cursorReportBytes_last r c hr hc _ rfl

theorem outcome_utf8 (c : Nat) (rest : List Nat) (h32 : 32 ≤ c) (h127 : c ≠ 127) :
    outcome (c :: rest) = Output.UNCOMPLETED := by
  simp only [outcome]
  rw [if_neg (by omega), if_neg (by omega), if_neg (by omega), if_neg h127]

/-! ## Timeouts -/

theorem Timeout_lt (p : TerminalInputParser) (t : Int) (h : wrapInt32 (p.timeout_ + t) < 50) :
    Timeout p t = { p with timeout_ := wrapInt32 (p.timeout_ + t) } := by
  simp only [Timeout]
  rw [if_pos h]

theorem Timeout_ge_nonempty (p : TerminalInputParser) (t : Int)
    (h : 50 ≤ wrapInt32 (p.timeout_ + t)) (hne : p.pending_ ≠ []) :
    Timeout p t =
      { p with out_ := p.out_ ++ [Event.Special p.pending_], timeout_ := 0, pending_ := [] } := by
  simp only [Timeout]
  rw [if_neg (by omega), if_pos (by simpa using hne)]
  rfl

theorem Timeout_ge_empty (p : TerminalInputParser) (t : Int)
    (h : 50 ≤ wrapInt32 (p.timeout_ + t)) (he : p.pending_ = []) :
    Timeout p t = { p with timeout_ := 0 } := by
  simp only [Timeout]
  rw [if_neg (by omega), if_neg (by simp [he])]

theorem Timeout_empty (p : TerminalInputParser) (t : Int) (he : p.pending_ = []) :
    (Timeout p t).out_ = p.out_ ∧ (Timeout p t).pending_ = [] := by
  by_cases h : wrapInt32 (p.timeout_ + t) < 50
  · rw [Timeout_lt p t h]
    exact ⟨rfl, he⟩
  · rw [Timeout_ge_empty p t (by omega) he]
    exact ⟨rfl, he⟩

theorem TimeoutAll_empty (ts : List Int) : ∀ p : TerminalInputParser, p.pending_ = [] →
    (TimeoutAll p ts).out_ = p.out_ ∧ (TimeoutAll p ts).pending_ = [] := by
  induction ts with
  | nil => intro p he; exact ⟨rfl, he⟩
  | cons t ts ih =>
    intro p he
    obtain ⟨h1, h2⟩ := Timeout_empty p t he
    obtain ⟨h3, h4⟩ := ih (Timeout p t) h2
    exact ⟨by rw [TimeoutAll, h3, h1], by rw [TimeoutAll, h4]⟩

theorem TimeoutAll_flush (ts : List Int) : ∀ p : TerminalInputParser, p.pending_ ≠ [] →
    p.timeout_ < 50 → TimeoutsInRange p ts → 50 ≤ p.timeout_ + ts.sum →
    (TimeoutAll p ts).out_ = p.out_ ++ [Event.Special p.pending_] ∧
      (TimeoutAll p ts).pending_ = [] := by
  induction ts with
  | nil =>
    intro p _ hlt _ hsum
    simp only [List.sum_nil] at hsum
    omega
  | cons t ts ih =>
    intro p hne hlt hrange hsum
    obtain ⟨h1, hrest⟩ := hrange
    have hw : wrapInt32 (p.timeout_ + t) = p.timeout_ + t := by
      unfold wrapInt32
      omega
    simp only [List.sum_cons] at hsum
    rw [TimeoutAll]
    by_cases hc : p.timeout_ + t < 50
    · have e := Timeout_lt p t (by omega)
      rw [hw] at e
      rw [e] at hrest ⊢
      exact ih _ hne hc hrest (by simp only []; omega)
    · rw [Timeout_ge_nonempty p t (by omega) hne]
      exact TimeoutAll_empty ts _ rfl

/-! ## The claims -/

/-- C1, where the code departs from the claim: `Add` of the printable byte `A` (0x41)
to the decoder as constructed sends no event and leaves the byte pending, while the
claim has one `Character` event and an empty buffer.  `ParseUTF8` returns
`UNCOMPLETED` on every byte (`ParseUTF8_eq`). -/
theorem C1_printable_byte_left_pending :
    Add TerminalInputParser.init 65 =
      some { out_ := [], position_ := 0, timeout_ := 0, pending_ := [65] } := by
  decide

/-- C2, where the code departs from the claim: the valid UTF-8 encodings `A` (1 byte),
`C3 A9` (2 bytes), `E2 82 AC` (3 bytes) and `F0 9F 98 80` (4 bytes), fed one byte per
`Add` into the decoder as constructed, send no event at all, the last byte included,
and stay in the pending buffer. -/
theorem C2_utf8_sequences_left_pending :
    AddAll TerminalInputParser.init [65] =
        some { out_ := [], position_ := 0, timeout_ := 0, pending_ := [65] } ∧
      AddAll TerminalInputParser.init [195, 169] =
        some { out_ := [], position_ := 0, timeout_ := 0, pending_ := [195, 169] } ∧
      AddAll TerminalInputParser.init [226, 130, 172] =
        some { out_ := [], position_ := 0, timeout_ := 0, pending_ := [226, 130, 172] } ∧
      AddAll TerminalInputParser.init [240, 159, 152, 128] =
        some { out_ := [], position_ := 0, timeout_ := 0,
               pending_ := [240, 159, 152, 128] } := by
  decide

/-- C3: for `a0, a1, a2 < 2^31` and `t` one of `M` (77), `m` (109), feeding
`ESC [ < a0 ; a1 ; a2 t` one byte per `Add` into a decoder with an empty buffer sends
nothing before the last byte, and at the last byte sends exactly one `Mouse` event with
`button = (a0 AND 3) + ((a0 AND 64) >> 4)`, motion pressed for `M` and released for `m`,
`shift = (a0 AND 4) != 0`, `meta = (a0 AND 8) != 0`, `x = a1`, `y = a2` and the whole
byte sequence as its input; the buffer is empty afterwards. -/
theorem C3_sgr_mouse_report (p : TerminalInputParser) (hp : p.pending_ = [])
    (a0 a1 a2 t : Nat) (h0 : a0 < 2 ^ 31) (h1 : a1 < 2 ^ 31) (h2 : a2 < 2 ^ 31)
    (ht : t = 77 ∨ t = 109) :
    (∀ k, k < (sgrMouseBytes a0 a1 a2 t).length →
      ∃ pk, AddAll p ((sgrMouseBytes a0 a1 a2 t).take k) = some pk ∧ pk.out_ = p.out_ ∧
        pk.pending_ = (sgrMouseBytes a0 a1 a2 t).take k) ∧
    ∃ pn, AddAll p (sgrMouseBytes a0 a1 a2 t) = some pn ∧
      pn.out_ = p.out_ ++ [Event.Mouse (sgrMouseBytes a0 a1 a2 t)
        { button := (((a0 &&& 3) + ((a0 &&& 64) >>> 4) : Nat) : Int)
          motion := if t = 77 then Motion.Pressed else Motion.Released
          shift := decide (a0 &&& 4 ≠ 0)
          meta := decide (a0 &&& 8 ≠ 0)
          x := (a1 : Int)
          y := (a2 : Int) }] ∧
      pn.pending_ = [] := by
  have hseq := AddAll_sequence _ t p hp
    (fun k => outcome_csi_take _ (sgrMouse_params a0 a1 a2) k)
  rw [← sgrMouseBytes_eq] at hseq
  refine ⟨hseq.1, ?_⟩
  obtain ⟨pos, hpos⟩ := hseq.2
  rw [outcome_sgrMouseBytes a0 a1 a2 t h0 h1 h2 ht] at hpos
  exact ⟨_, hpos, rfl, rfl⟩

/-- C4: for `r, c < 2^31`, the buffer `ESC [ r ; c R` is resolved by `Parse` to a
cursor report with `cursor.y = r` (row, first argument) and `cursor.x = c` (column,
second argument); fed one byte per `Add` into a decoder with an empty buffer it sends
nothing before the last byte and then exactly one `CursorReporting` event, carrying
`x = c`, `y = r` and the whole byte sequence as its input, and the buffer is empty
afterwards. -/
theorem C4_cursor_position_report (p : TerminalInputParser) (hp : p.pending_ = [])
    (r c : Nat) (hr : r < 2 ^ 31) (hc : c < 2 ^ 31) :
    (∀ q : TerminalInputParser, q.position_ = -1 → q.pending_ = cursorReportBytes r c →
      ∃ q1, Parse q = some (Output.CURSOR_REPORTING { x := (c : Int), y := (r : Int) }, q1)) ∧
    (∀ k, k < (cursorReportBytes r c).length →
      ∃ pk, AddAll p ((cursorReportBytes r c).take k) = some pk ∧ pk.out_ = p.out_) ∧
    ∃ pn, AddAll p (cursorReportBytes r c) = some pn ∧
      pn.out_ = p.out_ ++ [Event.CursorReporting (cursorReportBytes r c) (c : Int) (r : Int)] ∧
      pn.pending_ = [] := by
  have hseq := AddAll_sequence _ 82 p hp
    (fun k => outcome_csi_take _ (cursorReport_params r c) k)
  rw [← cursorReportBytes_eq] at hseq
  refine ⟨?_, ?_, ?_⟩
  · intro q hq hbuf
    obtain ⟨pos, hpos⟩ := Parse_eq q hq
    rw [hbuf, outcome_cursorReportBytes r c hr hc] at hpos
    exact ⟨_, hpos⟩
  · intro k hk
    obtain ⟨pk, e1, e2, _⟩ := hseq.1 k hk
    exact ⟨pk, e1, e2⟩
  · obtain ⟨pos, hpos⟩ := hseq.2
    rw [outcome_cursorReportBytes r c hr hc] at hpos
    exact ⟨_, hpos, rfl, rfl⟩


/-- Witness of C3 at the two reports of the claim: `ESC [ < 0 ; 10 ; 20 M` gives
button 0, pressed, no shift, no meta, x 10, y 20, and `ESC [ < 32 ; 5 ; 7 m` gives
button 0, released, x 5, y 7. -/
theorem C3_sgr_mouse_report_witness :
    (∃ pn, AddAll TerminalInputParser.init [27, 91, 60, 48, 59, 49, 48, 59, 50, 48, 77] =
        some pn ∧
      pn.out_ = [Event.Mouse [27, 91, 60, 48, 59, 49, 48, 59, 50, 48, 77]
        { button := 0, motion := Motion.Pressed, shift := false, meta := false,
          x := 10, y := 20 }] ∧
      pn.pending_ = []) ∧
    (∃ pn, AddAll TerminalInputParser.init [27, 91, 60, 51, 50, 59, 53, 59, 55, 109] =
        some pn ∧
      pn.out_ = [Event.Mouse [27, 91, 60, 51, 50, 59, 53, 59, 55, 109]
        { button := 0, motion := Motion.Released, shift := false, meta := false,
          x := 5, y := 7 }] ∧
      pn.pending_ = []) := by
  constructor
  · have h := (C3_sgr_mouse_report TerminalInputParser.init rfl 0 10 20 77
      (by norm_num) (by norm_num) (by norm_num) (Or.inl rfl)).2
    have e : sgrMouseBytes 0 10 20 77 = [27, 91, 60, 48, 59, 49, 48, 59, 50, 48, 77] := by
      simp [sgrMouseBytes, decimal]
    rw [e] at h
    exact h
  · have h := (C3_sgr_mouse_report TerminalInputParser.init rfl 32 5 7 109
      (by norm_num) (by norm_num) (by norm_num) (Or.inr rfl)).2
    have e : sgrMouseBytes 32 5 7 109 = [27, 91, 60, 51, 50, 59, 53, 59, 55, 109] := by
      simp [sgrMouseBytes, decimal]
    rw [e] at h
    exact h

/-- Witness of C4 at the report of the claim: `ESC [ 5 ; 12 R` gives row 5, column 12. -/
theorem C4_cursor_position_report_witness :
    ∃ pn, AddAll TerminalInputParser.init [27, 91, 53, 59, 49, 50, 82] = some pn ∧
      pn.out_ = [Event.CursorReporting [27, 91, 53, 59, 49, 50, 82] 12 5] ∧
      pn.pending_ = [] := by
  have h := (C4_cursor_position_report TerminalInputParser.init rfl 5 12
    (by norm_num) (by norm_num)).2.2
  have e : cursorReportBytes 5 12 = [27, 91, 53, 59, 49, 50, 82] := by
    simp [cursorReportBytes, decimal]
  rw [e] at h
  exact h


/-- C5 as stated fails: after `Add(ESC)` on the decoder as constructed, the calls
`Timeout(49)`, `Timeout(2147483647)` have increments that sum to at least 50, yet no
event is sent and `[ESC]` stays pending: the second addition to the 32-bit idle counter
overflows and leaves it below the threshold. -/
theorem C5_counterexample :
    Add TerminalInputParser.init 27 =
        some { out_ := [], position_ := 1, timeout_ := 0, pending_ := [27] } ∧
      (50 : Int) ≤ List.sum [49, 2147483647] ∧
      (TimeoutAll { out_ := [], position_ := 1, timeout_ := 0, pending_ := [27] }
        [49, 2147483647]).out_ = [] ∧
      (TimeoutAll { out_ := [], position_ := 1, timeout_ := 0, pending_ := [27] }
        [49, 2147483647]).pending_ = [27] := by
  decide

/-- C5, amended: on a decoder with an empty buffer `Add(ESC)` sends nothing and leaves
the buffer equal to `[ESC]`; then every run of `Timeout(t_i)` calls whose increments
sum to at least 50, and in which no addition to the idle counter leaves the range of
`int`, sends exactly one event over the whole run, `Special` with input `[ESC]`, and
leaves the buffer empty. -/
theorem C5_escape_then_idle (p : TerminalInputParser) (hp : p.pending_ = [])
    (ts : List Int)
    (hrange : TimeoutsInRange
      { out_ := p.out_, position_ := 1, timeout_ := 0, pending_ := [27] } ts)
    (hsum : 50 ≤ ts.sum) :
    Add p 27 = some { out_ := p.out_, position_ := 1, timeout_ := 0, pending_ := [27] } ∧
      (TimeoutAll { out_ := p.out_, position_ := 1, timeout_ := 0, pending_ := [27] } ts).out_ =
        p.out_ ++ [Event.Special [27]] ∧
      (TimeoutAll { out_ := p.out_, position_ := 1, timeout_ := 0, pending_ := [27] } ts).pending_ =
        [] := by
  constructor
  · simp [Add, Parse, ParseESC, Eat, Current, Send, hp]
  · exact TimeoutAll_flush ts _ (by simp) (by simp) hrange (by simpa using hsum)


/-- Witness of C5: `Add(ESC)` on the decoder as constructed, then `Timeout(20)`
three times. -/
theorem C5_escape_then_idle_witness :
    Add TerminalInputParser.init 27 =
        some { out_ := [], position_ := 1, timeout_ := 0, pending_ := [27] } ∧
      (TimeoutAll { out_ := [], position_ := 1, timeout_ := 0, pending_ := [27] }
        [20, 20, 20]).out_ = [Event.Special [27]] ∧
      (TimeoutAll { out_ := [], position_ := 1, timeout_ := 0, pending_ := [27] }
        [20, 20, 20]).pending_ = [] :=
  C5_escape_then_idle TerminalInputParser.init rfl [20, 20, 20]
    (by simp [TimeoutsInRange, Timeout, wrapInt32]) (by decide)

/-- C6: on a buffer whose first byte is CAN (0x18) or SUB (0x1A), whatever follows,
`Parse` returns `DROP`; and `Add` of such a byte to a decoder with an empty buffer
sends no event and leaves the buffer empty. -/
theorem C6_can_sub_drop (b : Nat) (hb : b = 24 ∨ b = 26) :
    (∀ (p : TerminalInputParser) (rest : List Nat), p.position_ = -1 →
      p.pending_ = b :: rest → Parse p = some (Output.DROP, { p with position_ := 0 })) ∧
    (∀ p : TerminalInputParser, p.pending_ = [] →
      ∃ p1, Add p b = some p1 ∧ p1.out_ = p.out_ ∧ p1.pending_ = []) := by
  constructor
  · intro p rest hpos hbuf
    simp only [Parse, Eat, Current, hpos, hbuf]
    simp [hb]
  · intro p hp
    obtain ⟨pos, hadd⟩ := Add_eq p b
    rw [hp] at hadd
    have ho : outcome ([] ++ [b]) = Output.DROP := by simp [outcome, hb]
    rw [ho] at hadd
    exact ⟨_, hadd, rfl, rfl⟩

/-- Witness of C6 at CAN followed by other bytes, and at `Add(CAN)`. -/
theorem C6_can_sub_drop_witness :
    Parse { out_ := [], position_ := -1, timeout_ := 0, pending_ := [24, 65, 27] } =
        some (Output.DROP, { out_ := [], position_ := 0, timeout_ := 0,
                             pending_ := [24, 65, 27] }) ∧
      ∃ p1, Add TerminalInputParser.init 24 = some p1 ∧ p1.out_ = [] ∧ p1.pending_ = [] :=
  ⟨(C6_can_sub_drop 24 (Or.inl rfl)).1 _ [65, 27] rfl rfl,
    (C6_can_sub_drop 24 (Or.inl rfl)).2 TerminalInputParser.init rfl⟩

/-- C7 as stated fails: with 49 units accumulated and `[ESC]` pending,
`Timeout(2147483647)` has `acc + t >= 50` and a non-empty buffer, yet it sends nothing
and leaves `[ESC]` pending: the addition to the 32-bit idle counter overflows and
leaves it below the threshold. -/
theorem C7_counterexample :
    (50 : Int) ≤ 49 + 2147483647 ∧
      (Timeout { out_ := [], position_ := 1, timeout_ := 49, pending_ := [27] }
        2147483647).out_ = [] ∧
      (Timeout { out_ := [], position_ := 1, timeout_ := 49, pending_ := [27] }
        2147483647).pending_ = [27] := by
  decide

/-- C7, amended: with accumulated idle time `acc = p.timeout_` and an increment `t`
whose sum `acc + t` lies within the range of `int`, `Timeout(t)` sends an event exactly
when `acc + t >= 50` and the pending buffer is non-empty; it then sends exactly one
`Special` event whose input is the whole pending buffer and empties the buffer; in
every other case it sends nothing and leaves the pending buffer unchanged. -/
theorem C7_timeout_flush (p : TerminalInputParser) (t : Int)
    (hlo : -2147483648 ≤ p.timeout_ + t) (hhi : p.timeout_ + t < 2147483648) :
    ((50 ≤ p.timeout_ + t ∧ p.pending_ ≠ []) →
      (Timeout p t).out_ = p.out_ ++ [Event.Special p.pending_] ∧
        (Timeout p t).pending_ = []) ∧
    (¬ (50 ≤ p.timeout_ + t ∧ p.pending_ ≠ []) →
      (Timeout p t).out_ = p.out_ ∧ (Timeout p t).pending_ = p.pending_) := by
  have hw : wrapInt32 (p.timeout_ + t) = p.timeout_ + t := by
    unfold wrapInt32
    omega
  constructor
  · rintro ⟨h50, hne⟩
    rw [Timeout_ge_nonempty p t (by omega) hne]
    exact ⟨rfl, rfl⟩
  · intro h
    by_cases h50 : 50 ≤ p.timeout_ + t
    · have he : p.pending_ = [] := by
        by_contra hne
        exact h ⟨h50, hne⟩
      rw [Timeout_ge_empty p t (by omega) he]
      exact ⟨rfl, rfl⟩
    · rw [Timeout_lt p t (by omega)]
      exact ⟨rfl, rfl⟩

/-- Witness of C7: 30 units accumulated, `[ESC]` pending, `Timeout(20)`. -/
theorem C7_timeout_flush_witness :
    (Timeout { out_ := [], position_ := 0, timeout_ := 30, pending_ := [27] } 20).out_ =
        [Event.Special [27]] ∧
      (Timeout { out_ := [], position_ := 0, timeout_ := 30, pending_ := [27] } 20).pending_ =
        [] :=
  (C7_timeout_flush { out_ := [], position_ := 0, timeout_ := 30, pending_ := [27] } 20
    (by decide) (by decide)).1 ⟨by decide, by decide⟩

/-- C8: for a byte `b` below 0x20 other than ESC, CAN and SUB, or equal to 0x7F,
`Add(b)` on a decoder with an empty buffer sends exactly one `Special` event with
input `[b]` and leaves the buffer empty. -/
theorem C8_control_byte_special (b : Nat)
    (hb : (b < 32 ∧ b ≠ 27 ∧ b ≠ 24 ∧ b ≠ 26) ∨ b = 127)
    (p : TerminalInputParser) (hp : p.pending_ = []) :
    ∃ p1, Add p b = some p1 ∧ p1.out_ = p.out_ ++ [Event.Special [b]] ∧
      p1.pending_ = [] := by
  obtain ⟨pos, hadd⟩ := Add_eq p b
  rw [hp] at hadd
  have ho : outcome ([] ++ [b]) = Output.SPECIAL := by
    simp only [List.nil_append, outcome]
    split_ifs <;> first | rfl | omega
  rw [ho] at hadd
  exact ⟨_, hadd, rfl, rfl⟩

/-- Witness of C8 at the carriage return (0x0D). -/
theorem C8_control_byte_special_witness :
    ∃ p1, Add TerminalInputParser.init 13 = some p1 ∧ p1.out_ = [] ++ [Event.Special [13]] ∧
      p1.pending_ = [] :=
  C8_control_byte_special 13 (Or.inl (by decide)) TerminalInputParser.init rfl

/-- C9 as stated fails: the two-byte buffer `[ESC, a]` is not resolved, `Parse`
returns `UNCOMPLETED` on it (the default case of `ParseESC` eats one more byte). -/
theorem C9_counterexample :
    Parse { out_ := [], position_ := -1, timeout_ := 0, pending_ := [27, 97] } =
      some (Output.UNCOMPLETED,
        { out_ := [], position_ := 2, timeout_ := 0, pending_ := [27, 97] }) := by
  decide

/-- C9, amended: for a byte `b` other than `P` (80), `[` (91) and `]` (93), the
one-byte buffer `[ESC]` and the two-byte buffer `[ESC, b]` are both `UNCOMPLETED`, and
a buffer `ESC b c ...` with at least one byte after `b` resolves to `SPECIAL`. -/
theorem C9_alt_key_needs_third_byte (b : Nat) (h80 : b ≠ 80) (h91 : b ≠ 91) (h93 : b ≠ 93)
    (p : TerminalInputParser) (hpos : p.position_ = -1) :
    (p.pending_ = [27] → Parse p = some (Output.UNCOMPLETED, { p with position_ := 1 })) ∧
    (p.pending_ = [27, b] →
      Parse p = some (Output.UNCOMPLETED, { p with position_ := 2 })) ∧
    (∀ (c : Nat) (rest : List Nat), p.pending_ = 27 :: b :: c :: rest →
      Parse p = some (Output.SPECIAL, { p with position_ := 2 })) := by
  refine ⟨?_, ?_, ?_⟩
  · intro hbuf
    simp [Parse, ParseESC, Eat, Current, hpos, hbuf]
  · intro hbuf
    simp [Parse, ParseESC, Eat, Current, hpos, hbuf, h80, h91, h93]
  · intro c rest hbuf
    simp [Parse, ParseESC, Eat, Current, hpos, hbuf, h80, h91, h93]
    rw [if_neg (by omega), if_neg (by omega), if_neg (by omega)]

/-- Witness of C9 (amended) at `b = a`: `[ESC]` and `[ESC, a]` are `UNCOMPLETED`,
`[ESC, a, b]` is `SPECIAL`. -/
theorem C9_alt_key_needs_third_byte_witness :
    Parse { out_ := [], position_ := -1, timeout_ := 0, pending_ := [27, 97, 98] } =
      some (Output.SPECIAL,
        { out_ := [], position_ := 2, timeout_ := 0, pending_ := [27, 97, 98] }) :=
  (C9_alt_key_needs_third_byte 97 (by decide) (by decide) (by decide)
    { out_ := [], position_ := -1, timeout_ := 0, pending_ := [27, 97, 98] } rfl).2.2
    98 [] rfl

/-- C10, where the code departs from the claim: the bodies `ESC ESC \` contain the
String Terminator (`ESC` immediately followed by `\`), yet `Parse` of `ESC P ESC ESC \`
and of `ESC ] ESC ESC \` is `UNCOMPLETED`, and feeding either to the decoder as
constructed sends no event; the scan pairs the first `ESC` with the second and
resumes after it. -/
theorem C10_string_terminator_missed :
    (Parse { out_ := [], position_ := -1, timeout_ := 0,
             pending_ := [27, 80, 27, 27, 92] }).map Prod.fst = some Output.UNCOMPLETED ∧
      (Parse { out_ := [], position_ := -1, timeout_ := 0,
               pending_ := [27, 93, 27, 27, 92] }).map Prod.fst = some Output.UNCOMPLETED ∧
      (AddAll TerminalInputParser.init [27, 80, 27, 27, 92]).map
          (fun p => (p.out_, p.pending_)) = some ([], [27, 80, 27, 27, 92]) ∧
      (AddAll TerminalInputParser.init [27, 93, 27, 27, 92]).map
          (fun p => (p.out_, p.pending_)) = some ([], [27, 93, 27, 27, 92]) := by
  refine ⟨?_, ?_, ?_, ?_⟩
  · obtain ⟨pos, h⟩ := Parse_eq
      { out_ := [], position_ := -1, timeout_ := 0, pending_ := [27, 80, 27, 27, 92] } rfl
    rw [h]
    rfl
  · obtain ⟨pos, h⟩ := Parse_eq
      { out_ := [], position_ := -1, timeout_ := 0, pending_ := [27, 93, 27, 27, 92] } rfl
    rw [h]
    rfl
  · obtain ⟨p1, h1, h2, h3⟩ := AddAll_uncompleted [27, 80, 27, 27, 92]
      TerminalInputParser.init (by
        intro k hk hk2
        simp only [List.length_cons, List.length_nil] at hk2
        interval_cases k <;> rfl)
    rw [h1, Option.map_some', h2, h3]
    rfl
  · obtain ⟨p1, h1, h2, h3⟩ := AddAll_uncompleted [27, 93, 27, 27, 92]
      TerminalInputParser.init (by
        intro k hk hk2
        simp only [List.length_cons, List.length_nil] at hk2
        interval_cases k <;> rfl)
    rw [h1, Option.map_some', h2, h3]
    rfl


/-! ## Sequences of `Add` and `Timeout` calls -/

theorem Timeout_cases (p : TerminalInputParser) (t : Int) :
    ((Timeout p t).out_ = p.out_ ∧ (Timeout p t).pending_ = p.pending_) ∨
      (p.pending_ ≠ [] ∧ (Timeout p t).out_ = p.out_ ++ [Event.Special p.pending_] ∧
        (Timeout p t).pending_ = [] ∧ (Timeout p t).timeout_ = 0) := by
  by_cases h : wrapInt32 (p.timeout_ + t) < 50
  · rw [Timeout_lt p t h]
    exact Or.inl ⟨rfl, rfl⟩
  · by_cases he : p.pending_ = []
    · rw [Timeout_ge_empty p t (by omega) he]
      exact Or.inl ⟨rfl, rfl⟩
    · rw [Timeout_ge_nonempty p t (by omega) he]
      exact Or.inr ⟨he, rfl, rfl, rfl⟩

/-- What `Add` does, by the outcome of `Parse` on the extended buffer. -/
theorem Add_cases (p : TerminalInputParser) (c : Nat) :
    ∃ p1, Add p c = some p1 ∧ p1.timeout_ = 0 ∧
      ((outcome (p.pending_ ++ [c]) = Output.UNCOMPLETED ∧ p1.out_ = p.out_ ∧
          p1.pending_ = p.pending_ ++ [c]) ∨
        (outcome (p.pending_ ++ [c]) = Output.DROP ∧ p1.out_ = p.out_ ∧ p1.pending_ = []) ∨
        (outcome (p.pending_ ++ [c]) ≠ Output.UNCOMPLETED ∧
          outcome (p.pending_ ++ [c]) ≠ Output.DROP ∧
          ∃ e, e.input = p.pending_ ++ [c] ∧ p1.out_ = p.out_ ++ [e] ∧ p1.pending_ = [])) := by
  obtain ⟨pos, hadd⟩ := Add_eq p c
  refine ⟨_, hadd, ?_, ?_⟩
  · cases outcome (p.pending_ ++ [c]) <;> rfl
  · cases h : outcome (p.pending_ ++ [c])
    · exact Or.inl ⟨rfl, rfl, rfl⟩
    · exact Or.inr (Or.inl ⟨rfl, rfl, rfl⟩)
    · exact Or.inr (Or.inr ⟨by simp, by simp, Event.Character (p.pending_ ++ [c]),
        rfl, rfl, rfl⟩)
    · exact Or.inr (Or.inr ⟨by simp, by simp, Event.Special (p.pending_ ++ [c]),
        rfl, rfl, rfl⟩)
    · exact Or.inr (Or.inr ⟨by simp, by simp, Event.Mouse (p.pending_ ++ [c]) _,
        rfl, rfl, rfl⟩)
    · exact Or.inr (Or.inr ⟨by simp, by simp, Event.CursorReporting (p.pending_ ++ [c]) _ _,
        rfl, rfl, rfl⟩)

/-- One call: it succeeds, the spans it resolves followed by the new pending buffer
are the old pending buffer followed by the byte it added, the events it sends are the
sent spans, and there is at most one span. -/
theorem applyCall_resolved (p : TerminalInputParser) (call : Call) :
    ∃ p1, applyCall p call = some p1 ∧
      p.pending_ ++ addedBytes [call] =
        ((resolvedBy p call).map Resolved.bytes).flatten ++ p1.pending_ ∧
      p1.out_ = p.out_ ++ (resolvedBy p call).filterMap Resolved.event ∧
      (resolvedBy p call).length ≤ 1 := by
  cases call with
  | add c =>
    obtain ⟨pos, hparse⟩ := Parse_eq
      { p with pending_ := p.pending_ ++ [c], timeout_ := 0, position_ := -1 } rfl
    simp only [applyCall, Add, resolvedBy, addedBytes, hparse]
    cases outcome (p.pending_ ++ [c]) <;> simp [Send, Resolved.bytes, Resolved.event, Event.input]
  | timeout t =>
    refine ⟨_, rfl, ?_⟩
    simp only [resolvedBy, addedBytes, List.append_nil]
    rcases Timeout_cases p t with ⟨h1, h2⟩ | ⟨_, h1, h2, _⟩
    · rw [h1, h2]
      simp
    · rw [h1, h2]
      simp [Resolved.bytes, Resolved.event, Event.input]

theorem run_resolved (calls : List Call) : ∀ p : TerminalInputParser,
    ∃ p1, run p calls = some p1 ∧
      p.pending_ ++ addedBytes calls =
        ((resolvedLog p calls).map Resolved.bytes).flatten ++ p1.pending_ ∧
      p1.out_ = p.out_ ++ (resolvedLog p calls).filterMap Resolved.event := by
  induction calls with
  | nil => intro p; exact ⟨p, rfl, by simp [addedBytes, resolvedLog], by simp [resolvedLog]⟩
  | cons call calls ih =>
    intro p
    obtain ⟨p1, h1, h2, h3, _⟩ := applyCall_resolved p call
    obtain ⟨p2, e1, e2, e3⟩ := ih p1
    refine ⟨p2, ?_, ?_, ?_⟩
    · simp only [run, h1, e1]
    · have hb : addedBytes (call :: calls) = addedBytes [call] ++ addedBytes calls := by
        cases call <;> simp [addedBytes]
      simp only [resolvedLog, h1, hb, List.map_append, List.flatten_append]
      rw [← List.append_assoc, h2, List.append_assoc, e2, List.append_assoc]
    · simp only [resolvedLog, h1, List.filterMap_append]
      rw [e3, h3, List.append_assoc]

theorem applyCall_at_most_one (p : TerminalInputParser) (call : Call) :
    ∃ p1, applyCall p call = some p1 ∧ (p1.out_ = p.out_ ∨ ∃ e, p1.out_ = p.out_ ++ [e]) := by
  cases call with
  | add c =>
    obtain ⟨p1, h1, _, h | h | ⟨_, _, e, _, h, _⟩⟩ := Add_cases p c
    · exact ⟨p1, h1, Or.inl h.2.1⟩
    · exact ⟨p1, h1, Or.inl h.2.1⟩
    · exact ⟨p1, h1, Or.inr ⟨e, h⟩⟩
  | timeout t =>
    refine ⟨_, rfl, ?_⟩
    rcases Timeout_cases p t with ⟨h1, _⟩ | ⟨_, h1, _, _⟩
    · exact Or.inl h1
    · exact Or.inr ⟨_, h1⟩


theorem run_invariant (calls : List Call) : ∀ p : TerminalInputParser,
    (p.pending_ = [] ∨ outcome p.pending_ = Output.UNCOMPLETED) →
    ∃ p1, run p calls = some p1 ∧
      (p1.pending_ = [] ∨ outcome p1.pending_ = Output.UNCOMPLETED) := by
  induction calls with
  | nil => intro p h; exact ⟨p, rfl, h⟩
  | cons call calls ih =>
    intro p h
    cases call with
    | add c =>
      obtain ⟨p1, h1, _, hc | hc | ⟨_, _, e, _, _, hc⟩⟩ := Add_cases p c
      · obtain ⟨p2, e1, e2⟩ := ih p1 (Or.inr (by rw [hc.2.2]; exact hc.1))
        exact ⟨p2, by simp only [run, applyCall, h1, e1], e2⟩
      · obtain ⟨p2, e1, e2⟩ := ih p1 (Or.inl hc.2.2)
        exact ⟨p2, by simp only [run, applyCall, h1, e1], e2⟩
      · obtain ⟨p2, e1, e2⟩ := ih p1 (Or.inl hc)
        exact ⟨p2, by simp only [run, applyCall, h1, e1], e2⟩
    | timeout t =>
      have hinv : (Timeout p t).pending_ = [] ∨
          outcome (Timeout p t).pending_ = Output.UNCOMPLETED := by
        rcases Timeout_cases p t with ⟨_, h2⟩ | ⟨_, _, h2, _⟩
        · rw [h2]; exact h
        · exact Or.inl h2
      obtain ⟨p2, e1, e2⟩ := ih (Timeout p t) hinv
      exact ⟨p2, by simp only [run, applyCall, e1], e2⟩

/-- C11: for every sequence of `Add` and `Timeout` calls from a decoder with an empty
buffer, the spans resolved by the calls (the input of each event sent, and each span
dropped), concatenated in order and followed by the final pending buffer, are exactly
the bytes passed to `Add`, in order; the events in `out_` are the sent spans, in
order; and every call sends at most one event. -/
theorem C11_bytes_conserved (p : TerminalInputParser) (hp : p.pending_ = [])
    (calls : List Call) :
    ∃ p1, run p calls = some p1 ∧
      ((resolvedLog p calls).map Resolved.bytes).flatten ++ p1.pending_ = addedBytes calls ∧
      p1.out_ = p.out_ ++ (resolvedLog p calls).filterMap Resolved.event ∧
      ∀ (q : TerminalInputParser) (call : Call),
        ∃ q1, applyCall q call = some q1 ∧ (q1.out_ = q.out_ ∨ ∃ e, q1.out_ = q.out_ ++ [e]) := by
  obtain ⟨p1, h1, h2, h3⟩ := run_resolved calls p
  rw [hp, List.nil_append] at h2
  exact ⟨p1, h1, h2.symm, h3, applyCall_at_most_one⟩

/-- Witness of C11: `Add(ESC)`, `Timeout(60)`, `Add(CAN)`, `Add(CR)`, `Add(ESC)` on the
decoder as constructed: `[ESC]` is sent, `[CAN]` is dropped, `[CR]` is sent and `[ESC]`
stays pending. -/
theorem C11_bytes_conserved_witness :
    resolvedLog TerminalInputParser.init
        [Call.add 27, Call.timeout 60, Call.add 24, Call.add 13, Call.add 27] =
      [Resolved.sent (Event.Special [27]), Resolved.dropped [24],
        Resolved.sent (Event.Special [13])] ∧
    ∃ p1, run TerminalInputParser.init
        [Call.add 27, Call.timeout 60, Call.add 24, Call.add 13, Call.add 27] = some p1 ∧
      ((resolvedLog TerminalInputParser.init
        [Call.add 27, Call.timeout 60, Call.add 24, Call.add 13, Call.add 27]).map
          Resolved.bytes).flatten ++ p1.pending_ = [27, 24, 13, 27] := by
  refine ⟨by decide, ?_⟩
  obtain ⟨p1, h1, h2, _⟩ := C11_bytes_conserved TerminalInputParser.init rfl
    [Call.add 27, Call.timeout 60, Call.add 24, Call.add 13, Call.add 27]
  exact ⟨p1, h1, h2⟩

/-- C12: in every state reached from a decoder with an empty buffer by `Add` and
`Timeout` calls, the pending buffer is empty or is a buffer on which `Parse` returns
`UNCOMPLETED`; and after `Add(c)` the buffer is empty when `Parse` of the old buffer
followed by `c` is not `UNCOMPLETED`, and is the old buffer followed by `c`
otherwise. -/
theorem C12_buffer_lifecycle (p : TerminalInputParser) (hp : p.pending_ = [])
    (calls : List Call) :
    (∃ p1, run p calls = some p1 ∧
      (p1.pending_ = [] ∨
        ∀ q : TerminalInputParser, q.position_ = -1 → q.pending_ = p1.pending_ →
          ∃ q1, Parse q = some (Output.UNCOMPLETED, q1))) ∧
    ∀ (q : TerminalInputParser) (c : Nat),
      ∃ o q1 q2,
        Parse { q with pending_ := q.pending_ ++ [c], timeout_ := 0, position_ := -1 } =
          some (o, q1) ∧
        Add q c = some q2 ∧
        (o ≠ Output.UNCOMPLETED → q2.pending_ = []) ∧
        (o = Output.UNCOMPLETED → q2.pending_ = q.pending_ ++ [c]) := by
  constructor
  · obtain ⟨p1, h1, h2⟩ := run_invariant calls p (Or.inl hp)
    refine ⟨p1, h1, ?_⟩
    rcases h2 with h2 | h2
    · exact Or.inl h2
    · right
      intro q hq hbuf
      obtain ⟨pos, hpos⟩ := Parse_eq q hq
      rw [hbuf, h2] at hpos
      exact ⟨_, hpos⟩
  · intro q c
    obtain ⟨pos, hparse⟩ := Parse_eq
      { q with pending_ := q.pending_ ++ [c], timeout_ := 0, position_ := -1 } rfl
    refine ⟨outcome (q.pending_ ++ [c]), _,
      Send ⟨q.out_, pos, 0, q.pending_ ++ [c]⟩ (outcome (q.pending_ ++ [c])),
      hparse, ?_, ?_, ?_⟩
    · simp only [Add, hparse]
    · intro ho
      cases h : outcome (q.pending_ ++ [c]) <;> simp_all [Send]
    · intro ho
      rw [ho]
      rfl

/-- Witness of C12: after `Add(ESC)`, `Add([)`, `Add(1)` on the decoder as constructed
the buffer holds the three bytes, on which `Parse` returns `UNCOMPLETED`. -/
theorem C12_buffer_lifecycle_witness :
    ∃ p1, run TerminalInputParser.init [Call.add 27, Call.add 91, Call.add 49] = some p1 ∧
      (p1.pending_ = [] ∨
        ∀ q : TerminalInputParser, q.position_ = -1 → q.pending_ = p1.pending_ →
          ∃ q1, Parse q = some (Output.UNCOMPLETED, q1)) :=
  (C12_buffer_lifecycle TerminalInputParser.init rfl
    [Call.add 27, Call.add 91, Call.add 49]).1


/-- C17: `Add(c)` leaves the idle counter at zero, so a `Timeout(t)` with `t < 50`
right after any `Add` sends nothing and leaves the pending buffer unchanged, whatever
idle time was reported before the byte. -/
theorem C17_add_resets_idle_counter (p : TerminalInputParser) (c : Nat) (t : Int)
    (hlo : -2147483648 ≤ t) (ht : t < 50) :
    ∃ p1, Add p c = some p1 ∧ p1.timeout_ = 0 ∧
      (Timeout p1 t).out_ = p1.out_ ∧ (Timeout p1 t).pending_ = p1.pending_ := by
  obtain ⟨p1, hadd, h0, _⟩ := Add_cases p c
  refine ⟨p1, hadd, h0, ?_⟩
  have hw : wrapInt32 (p1.timeout_ + t) < 50 := by
    rw [h0]
    unfold wrapInt32
    omega
  rw [Timeout_lt p1 t hw]
  exact ⟨rfl, rfl⟩

/-- Witness of C17: `Timeout(49)`, `Add(ESC)`, `Timeout(49)` on the decoder as
constructed sends no event. -/
theorem C17_add_resets_idle_counter_witness :
    run TerminalInputParser.init [Call.timeout 49, Call.add 27, Call.timeout 49] =
        some { out_ := [], position_ := 1, timeout_ := 49, pending_ := [27] } ∧
      ∃ p1, Add (Timeout TerminalInputParser.init 49) 27 = some p1 ∧ p1.timeout_ = 0 ∧
        (Timeout p1 49).out_ = p1.out_ ∧ (Timeout p1 49).pending_ = p1.pending_ :=
  ⟨by decide,
    C17_add_resets_idle_counter (Timeout TerminalInputParser.init 49) 27 49
      (by decide) (by decide)⟩

/-- C18: two decoder states with the same pending buffer, whatever their scan
position, idle counter and events already sent, give on `Add(c)` the same outcome of
`Parse`, the same events sent and the same resulting pending buffer. -/
theorem C18_add_deterministic (p q : TerminalInputParser) (c : Nat)
    (h : p.pending_ = q.pending_) :
    ∃ (o : Output) (es : List Event) (p1 q1 p2 q2 : TerminalInputParser),
      Parse { p with pending_ := p.pending_ ++ [c], timeout_ := 0, position_ := -1 } =
        some (o, p1) ∧
      Parse { q with pending_ := q.pending_ ++ [c], timeout_ := 0, position_ := -1 } =
        some (o, q1) ∧
      Add p c = some p2 ∧ Add q c = some q2 ∧
      p2.out_ = p.out_ ++ es ∧ q2.out_ = q.out_ ++ es ∧ p2.pending_ = q2.pending_ := by
  obtain ⟨pp, hp⟩ := Parse_eq
    { p with pending_ := p.pending_ ++ [c], timeout_ := 0, position_ := -1 } rfl
  obtain ⟨qp, hq⟩ := Parse_eq
    { q with pending_ := q.pending_ ++ [c], timeout_ := 0, position_ := -1 } rfl
  simp only [] at hp hq
  rw [← h] at hq
  refine ⟨outcome (p.pending_ ++ [c]),
    (Send ⟨[], 0, 0, p.pending_ ++ [c]⟩ (outcome (p.pending_ ++ [c]))).out_,
    ⟨p.out_, pp, 0, p.pending_ ++ [c]⟩, ⟨q.out_, qp, 0, p.pending_ ++ [c]⟩,
    Send ⟨p.out_, pp, 0, p.pending_ ++ [c]⟩ (outcome (p.pending_ ++ [c])),
    Send ⟨q.out_, qp, 0, p.pending_ ++ [c]⟩ (outcome (p.pending_ ++ [c])),
    hp, ?_, ?_, ?_, ?_, ?_, ?_⟩
  · rw [← h]
    exact hq
  · simp only [Add, hp]
  · simp only [Add]
    rw [← h, hq]
  · cases outcome (p.pending_ ++ [c]) <;> simp [Send]
  · cases outcome (p.pending_ ++ [c]) <;> simp [Send]
  · cases outcome (p.pending_ ++ [c]) <;> rfl

/-- Witness of C18: `Add([)` on two states that both hold `[ESC]` and differ in scan
position, idle counter and events already sent. -/
theorem C18_add_deterministic_witness :
    ∃ (o : Output) (es : List Event) (p1 q1 p2 q2 : TerminalInputParser),
      Parse { out_ := [], position_ := -1, timeout_ := 0, pending_ := [27] ++ [91] } =
        some (o, p1) ∧
      Parse { out_ := [Event.Special [13]], position_ := -1, timeout_ := 0,
              pending_ := [27] ++ [91] } = some (o, q1) ∧
      Add { out_ := [], position_ := 5, timeout_ := 30, pending_ := [27] } 91 = some p2 ∧
      Add { out_ := [Event.Special [13]], position_ := 1, timeout_ := 0,
            pending_ := [27] } 91 = some q2 ∧
      p2.out_ = [] ++ es ∧ q2.out_ = [Event.Special [13]] ++ es ∧
      p2.pending_ = q2.pending_ :=
  C18_add_deterministic { out_ := [], position_ := 5, timeout_ := 30, pending_ := [27] }
    { out_ := [Event.Special [13]], position_ := 1, timeout_ := 0, pending_ := [27] } 91 rfl


/-! ## CSI sequences: parameter bytes, then a final byte -/

/-- Eating parameter bytes (digits, `;`, `<`) only changes the locals of
`ParseCSI.loop`; each `;` adds one argument. -/
theorem outcomeCSI_params_append (body : List Nat)
    (hbody : ∀ c ∈ body, c = 60 ∨ (48 ≤ c ∧ c ≤ 57) ∨ c = 59) (rest : List Nat) :
    ∀ (altered : Bool) (argument : Int) (arguments : List Int),
    ∃ (altered1 : Bool) (argument1 : Int) (arguments1 : List Int),
      outcomeCSI (body ++ rest) altered argument arguments =
        outcomeCSI rest altered1 argument1 arguments1 ∧
      arguments1.length = arguments.length + body.count 59 := by
  induction body with
  | nil => intro altered argument arguments; exact ⟨altered, argument, arguments, rfl, by simp⟩
  | cons c body ih =>
    intro altered argument arguments
    have hc := hbody c (List.mem_cons_self _ _)
    have ih2 := ih (fun x hx => hbody x (List.mem_cons_of_mem _ hx))
    simp only [List.cons_append, outcomeCSI]
    by_cases h60 : c = 60
    · rw [if_pos h60]
      obtain ⟨a1, g1, l1, e1, e2⟩ := ih2 true argument arguments
      refine ⟨a1, g1, l1, e1, ?_⟩
      rw [e2, List.count_cons_of_ne (by omega)]
    · rw [if_neg h60]
      by_cases hd : 48 ≤ c ∧ c ≤ 57
      · rw [if_pos hd]
        obtain ⟨a1, g1, l1, e1, e2⟩ := ih2 altered
          (wrapInt32 (wrapInt32 (argument * 10) + ((c : Int) - 48))) arguments
        refine ⟨a1, g1, l1, e1, ?_⟩
        rw [e2, List.count_cons_of_ne (by omega)]
      · have h59 : c = 59 := by omega
        rw [if_neg hd, if_pos h59]
        obtain ⟨a1, g1, l1, e1, e2⟩ := ih2 altered 0 (arguments ++ [argument])
        refine ⟨a1, g1, l1, e1, ?_⟩
        rw [e2, h59, List.count_cons_self]
        simp only [List.length_append, List.length_singleton]
        omega

/-- The outcome of `Parse` on `ESC [ body t`, `body` made of parameter bytes: that of
the final byte `t` with `1 + (number of ; in body)` arguments collected. -/
theorem outcome_csi_final (body : List Nat)
    (hbody : ∀ c ∈ body, c = 60 ∨ (48 ≤ c ∧ c ≤ 57) ∨ c = 59) (t : Nat) :
    ∃ (altered : Bool) (argument : Int) (arguments : List Int),
      outcome (27 :: 91 :: (body ++ [t])) = outcomeCSI [t] altered argument arguments ∧
      (arguments ++ [argument]).length = body.count 59 + 1 := by
  obtain ⟨a1, g1, l1, e1, e2⟩ := outcomeCSI_params_append body hbody [t] false 0 []
  refine ⟨a1, g1, l1, ?_, ?_⟩
  · simp only [outcome, outcomeESC]
    norm_num
    exact e1
  · simp only [List.length_append, List.length_singleton, e2, List.length_nil]
    omega

/-- C14: on a CSI buffer `ESC [ body t` with `body` made of decimal digits, `;` and
`<`, and `t` one of `M`, `m`, `Parse` returns `MOUSE` exactly when `body` holds two
`;` (three arguments were collected), and `SPECIAL` for every other count. -/
theorem C14_mouse_needs_three_arguments (body : List Nat)
    (hbody : ∀ c ∈ body, c = 60 ∨ (48 ≤ c ∧ c ≤ 57) ∨ c = 59) (t : Nat)
    (ht : t = 77 ∨ t = 109) (p : TerminalInputParser) (hpos : p.position_ = -1)
    (hbuf : p.pending_ = 27 :: 91 :: (body ++ [t])) :
    ∃ o p1, Parse p = some (o, p1) ∧
      ((∃ mouse, o = Output.MOUSE mouse) ↔ body.count 59 = 2) ∧
      (body.count 59 ≠ 2 → o = Output.SPECIAL) := by
  obtain ⟨pos, hparse⟩ := Parse_eq p hpos
  obtain ⟨a1, g1, l1, e1, e2⟩ := outcome_csi_final body hbody t
  rw [hbuf] at hparse
  refine ⟨_, _, hparse, ?_⟩
  have key : outcome (27 :: 91 :: (body ++ [t])) =
      ParseMouse a1 (decide (t = 77)) (l1 ++ [g1]) := by
    rw [e1]
    rcases ht with ht | ht <;> subst ht <;> rfl
  rw [key]
  unfold ParseMouse
  by_cases hcount : body.count 59 = 2
  · rw [if_neg (by omega)]
    simp [hcount]
  · rw [if_pos (by omega)]
    simp [hcount]

/-- Witness of C14: `ESC [ 0 ; 10 M` has two arguments and resolves to `SPECIAL`. -/
theorem C14_mouse_needs_three_arguments_witness :
    ∃ p1, Parse { out_ := [], position_ := -1, timeout_ := 0,
                  pending_ := [27, 91, 48, 59, 49, 48, 77] } = some (Output.SPECIAL, p1) := by
  obtain ⟨o, p1, h1, _, h3⟩ := C14_mouse_needs_three_arguments [48, 59, 49, 48]
    (by decide) 77 (Or.inl rfl)
    { out_ := [], position_ := -1, timeout_ := 0, pending_ := [27, 91, 48, 59, 49, 48, 77] }
    rfl rfl
  rw [h3 (by decide)] at h1
  exact ⟨p1, h1⟩


/-- C15: on a CSI buffer `ESC [ body R` with `body` made of decimal digits, `;` and
`<`, `Parse` returns `CURSOR_REPORTING` exactly when `body` holds one `;` (two
arguments were collected), and `SPECIAL` for every other count. -/
theorem C15_cursor_needs_two_arguments (body : List Nat)
    (hbody : ∀ c ∈ body, c = 60 ∨ (48 ≤ c ∧ c ≤ 57) ∨ c = 59)
    (p : TerminalInputParser) (hpos : p.position_ = -1)
    (hbuf : p.pending_ = 27 :: 91 :: (body ++ [82])) :
    ∃ o p1, Parse p = some (o, p1) ∧
      ((∃ cursor, o = Output.CURSOR_REPORTING cursor) ↔ body.count 59 = 1) ∧
      (body.count 59 ≠ 1 → o = Output.SPECIAL) := by
  obtain ⟨pos, hparse⟩ := Parse_eq p hpos
  obtain ⟨a1, g1, l1, e1, e2⟩ := outcome_csi_final body hbody 82
  rw [hbuf] at hparse
  refine ⟨_, _, hparse, ?_⟩
  have key : outcome (27 :: 91 :: (body ++ [82])) = ParseCursorReporting (l1 ++ [g1]) := by
    rw [e1]
    rfl
  rw [key]
  unfold ParseCursorReporting
  by_cases hcount : body.count 59 = 1
  · rw [if_neg (by omega)]
    simp [hcount]
  · rw [if_pos (by omega)]
    simp [hcount]

/-- Witness of C15: `ESC [ 5 R` (one argument) and `ESC [ 1 ; 2 ; 3 R` (three
arguments) resolve to `SPECIAL`. -/
theorem C15_cursor_needs_two_arguments_witness :
    (∃ p1, Parse { out_ := [], position_ := -1, timeout_ := 0,
                   pending_ := [27, 91, 53, 82] } = some (Output.SPECIAL, p1)) ∧
    ∃ p1, Parse { out_ := [], position_ := -1, timeout_ := 0,
                  pending_ := [27, 91, 49, 59, 50, 59, 51, 82] } =
      some (Output.SPECIAL, p1) := by
  constructor
  · obtain ⟨o, p1, h1, _, h3⟩ := C15_cursor_needs_two_arguments [53] (by decide)
      { out_ := [], position_ := -1, timeout_ := 0, pending_ := [27, 91, 53, 82] } rfl rfl
    rw [h3 (by decide)] at h1
    exact ⟨p1, h1⟩
  · obtain ⟨o, p1, h1, _, h3⟩ := C15_cursor_needs_two_arguments [49, 59, 50, 59, 51]
      (by decide)
      { out_ := [], position_ := -1, timeout_ := 0,
        pending_ := [27, 91, 49, 59, 50, 59, 51, 82] } rfl rfl
    rw [h3 (by decide)] at h1
    exact ⟨p1, h1⟩

theorem outcomeCSI_other_final (t : Nat) (h32 : 32 ≤ t) (h126 : t ≤ 126)
    (hdigit : ¬ (48 ≤ t ∧ t ≤ 57)) (h59 : t ≠ 59) (h60 : t ≠ 60) (h77 : t ≠ 77)
    (h109 : t ≠ 109) (h82 : t ≠ 82) (altered : Bool) (argument : Int)
    (arguments : List Int) :
    outcomeCSI [t] altered argument arguments = Output.SPECIAL := by
  simp only [outcomeCSI]
  rw [if_neg h60, if_neg hdigit, if_neg h59, if_pos ⟨h32, h126, h60⟩, if_neg h77,
    if_neg h109, if_neg h82]

/-- C16: on a CSI buffer `ESC [ params t`, where `params` is made of decimal digits
and `;`, optionally preceded by `<`, and `t` is a printable byte (0x20..0x7E) other
than a digit, `;`, `<`, `M`, `m` and `R`, `Parse` returns `SPECIAL` on the whole buffer
and `UNCOMPLETED` on every proper initial part that contains `ESC [`. -/
theorem C16_other_final_byte (lead params : List Nat) (hlead : lead = [] ∨ lead = [60])
    (hparams : ∀ c ∈ params, (48 ≤ c ∧ c ≤ 57) ∨ c = 59) (t : Nat)
    (h32 : 32 ≤ t) (h126 : t ≤ 126) (hdigit : ¬ (48 ≤ t ∧ t ≤ 57)) (h59 : t ≠ 59)
    (h60 : t ≠ 60) (h77 : t ≠ 77) (h109 : t ≠ 109) (h82 : t ≠ 82)
    (p : TerminalInputParser) (hpos : p.position_ = -1) :
    (p.pending_ = 27 :: 91 :: (lead ++ params ++ [t]) →
      ∃ p1, Parse p = some (Output.SPECIAL, p1)) ∧
    (∀ k, 2 ≤ k → k < (27 :: 91 :: (lead ++ params ++ [t])).length →
      p.pending_ = (27 :: 91 :: (lead ++ params ++ [t])).take k →
      ∃ p1, Parse p = some (Output.UNCOMPLETED, p1)) := by
  have hbody : ∀ c ∈ lead ++ params, c = 60 ∨ (48 ≤ c ∧ c ≤ 57) ∨ c = 59 := by
    intro c hc
    rcases List.mem_append.mp hc with h | h
    · rcases hlead with hl | hl
      · rw [hl] at h; cases h
      · rw [hl] at h
        exact Or.inl (List.mem_singleton.mp h)
    · exact Or.inr (hparams c h)
  obtain ⟨pos, hparse⟩ := Parse_eq p hpos
  constructor
  · intro hbuf
    obtain ⟨a1, g1, l1, e1, _⟩ := outcome_csi_final (lead ++ params) hbody t
    rw [hbuf, e1, outcomeCSI_other_final t h32 h126 hdigit h59 h60 h77 h109 h82] at hparse
    exact ⟨_, hparse⟩
  · intro k _ hk hbuf
    have hk2 : k ≤ (27 :: 91 :: (lead ++ params)).length := by
      simp only [List.length_cons, List.length_append, List.length_singleton,
        List.length_nil] at hk ⊢
      omega
    have hfull : 27 :: 91 :: (lead ++ params ++ [t]) =
        (27 :: 91 :: (lead ++ params)) ++ [t] := by simp
    rw [hfull, List.take_append_of_le_length hk2] at hbuf
    rw [hbuf, outcome_csi_take _ hbody k] at hparse
    exact ⟨_, hparse⟩

/-- Witness of C16: `ESC [ < 1 ; 2 A` is `SPECIAL`, and its initial part `ESC [ < 1 ;`
is `UNCOMPLETED`. -/
theorem C16_other_final_byte_witness :
    (∃ p1, Parse { out_ := [], position_ := -1, timeout_ := 0,
                   pending_ := [27, 91, 60, 49, 59, 50, 65] } =
      some (Output.SPECIAL, p1)) ∧
    ∃ p1, Parse { out_ := [], position_ := -1, timeout_ := 0,
                  pending_ := [27, 91, 60, 49, 59] } = some (Output.UNCOMPLETED, p1) :=
  ⟨(C16_other_final_byte [60] [49, 59, 50] (Or.inr rfl) (by decide) 65 (by decide)
      (by decide) (by decide) (by decide) (by decide) (by decide) (by decide) (by decide)
      { out_ := [], position_ := -1, timeout_ := 0,
        pending_ := [27, 91, 60, 49, 59, 50, 65] } rfl).1 rfl,
    (C16_other_final_byte [60] [49, 59, 50] (Or.inr rfl) (by decide) 65 (by decide)
      (by decide) (by decide) (by decide) (by decide) (by decide) (by decide) (by decide)
      { out_ := [], position_ := -1, timeout_ := 0,
        pending_ := [27, 91, 60, 49, 59] } rfl).2 5 (by decide) (by decide) rfl⟩

/-- C20: a raw ESC inside a CSI sequence aborts it: on `ESC [ body ESC`, with `body`
made of decimal digits, `;` and `<`, `Parse` returns `SPECIAL`. -/
theorem C20_escape_aborts_csi (body : List Nat)
    (hbody : ∀ c ∈ body, c = 60 ∨ (48 ≤ c ∧ c ≤ 57) ∨ c = 59)
    (p : TerminalInputParser) (hpos : p.position_ = -1)
    (hbuf : p.pending_ = 27 :: 91 :: (body ++ [27])) :
    ∃ p1, Parse p = some (Output.SPECIAL, p1) := by
  obtain ⟨pos, hparse⟩ := Parse_eq p hpos
  obtain ⟨a1, g1, l1, e1, _⟩ := outcome_csi_final body hbody 27
  have hlast : outcomeCSI [27] a1 g1 l1 = Output.SPECIAL := by
    simp [outcomeCSI]
  rw [hbuf, e1, hlast] at hparse
  exact ⟨_, hparse⟩

/-- Witness of C20: `ESC [ 1 ; 2 ESC` is `SPECIAL`. -/
theorem C20_escape_aborts_csi_witness :
    ∃ p1, Parse { out_ := [], position_ := -1, timeout_ := 0,
                  pending_ := [27, 91, 49, 59, 50, 27] } = some (Output.SPECIAL, p1) :=
  C20_escape_aborts_csi [49, 59, 50] (by decide)
    { out_ := [], position_ := -1, timeout_ := 0, pending_ := [27, 91, 49, 59, 50, 27] }
    rfl rfl


/-! ## How far a call of `Parse` scans -/

theorem Eat_iterate (n : Nat) (p : TerminalInputParser) :
    (fun s => (Eat s).2)^[n] p = { p with position_ := p.position_ + n } := by
  induction n generalizing p with
  | zero => simp
  | succ n ih =>
    rw [Function.iterate_succ_apply, ih]
    simp only [Eat_snd, Nat.cast_add, Nat.cast_one]
    congr 1
    omega

theorem Eat_fst_false (p : TerminalInputParser) :
    (Eat p).1 = false ↔ (p.pending_.length : Int) ≤ p.position_ + 1 := by
  simp [Eat_fst]

theorem Eat_position (p : TerminalInputParser) :
    (Eat p).2.position_ = p.position_ + 1 := rfl

theorem Eat_pending (p : TerminalInputParser) : (Eat p).2.pending_ = p.pending_ := rfl

theorem ParseDCS_pos (n : Nat) : ∀ p : TerminalInputParser,
    ((p.pending_.length : Int) - p.position_).toNat = n →
    ∀ o p1, ParseDCS p = some (o, p1) →
      p.position_ < p1.position_ ∧
        (p1.position_ ≤ p.pending_.length ∨ p1.position_ = p.position_ + 1) := by
  induction n using Nat.strong_induction_on with
  | _ n ih =>
    intro p hn o p1 h
    rw [ParseDCS] at h
    split at h
    · rename_i h1
      rw [Eat_fst_false] at h1
      simp only [Option.some.injEq, Prod.mk.injEq] at h
      obtain ⟨_, rfl⟩ := h
      exact ⟨by rw [Eat_position]; omega, Or.inr rfl⟩
    · rename_i h1
      rw [Eat_fst_false] at h1
      split at h
      · cases h
      · split_ifs at h with h2 h3
        · have := ih _ (by simp only [Eat_position, Eat_pending]; omega) (Eat p).2 rfl o p1 h
          simp only [Eat_position, Eat_pending] at this
          omega
        · rw [Eat_fst_false] at h3
          simp only [Option.some.injEq, Prod.mk.injEq] at h
          obtain ⟨_, rfl⟩ := h
          simp only [Eat_position, Eat_pending] at h3 ⊢
          omega
        · rw [Eat_fst_false] at h3
          simp only [Eat_position, Eat_pending] at h3
          split at h
          · cases h
          · split_ifs at h
            · have := ih _ (by simp only [Eat_position, Eat_pending]; omega)
                (Eat (Eat p).2).2 rfl o p1 h
              simp only [Eat_position, Eat_pending] at this
              omega
            · simp only [Option.some.injEq, Prod.mk.injEq] at h
              obtain ⟨_, rfl⟩ := h
              simp only [Eat_position, Eat_pending]
              omega

theorem ParseOSC_pos (n : Nat) : ∀ p : TerminalInputParser,
    ((p.pending_.length : Int) - p.position_).toNat = n →
    ∀ o p1, ParseOSC p = some (o, p1) →
      p.position_ < p1.position_ ∧
        (p1.position_ ≤ p.pending_.length ∨ p1.position_ = p.position_ + 1) := by
  induction n using Nat.strong_induction_on with
  | _ n ih =>
    intro p hn o p1 h
    rw [ParseOSC] at h
    split at h
    · rename_i h1
      rw [Eat_fst_false] at h1
      simp only [Option.some.injEq, Prod.mk.injEq] at h
      obtain ⟨_, rfl⟩ := h
      exact ⟨by rw [Eat_position]; omega, Or.inr rfl⟩
    · rename_i h1
      rw [Eat_fst_false] at h1
      split at h
      · cases h
      · split_ifs at h with h2 h3
        · have := ih _ (by simp only [Eat_position, Eat_pending]; omega) (Eat p).2 rfl o p1 h
          simp only [Eat_position, Eat_pending] at this
          omega
        · rw [Eat_fst_false] at h3
          simp only [Option.some.injEq, Prod.mk.injEq] at h
          obtain ⟨_, rfl⟩ := h
          simp only [Eat_position, Eat_pending] at h3 ⊢
          omega
        · rw [Eat_fst_false] at h3
          simp only [Eat_position, Eat_pending] at h3
          split at h
          · cases h
          · split_ifs at h
            · have := ih _ (by simp only [Eat_position, Eat_pending]; omega)
                (Eat (Eat p).2).2 rfl o p1 h
              simp only [Eat_position, Eat_pending] at this
              omega
            · simp only [Option.some.injEq, Prod.mk.injEq] at h
              obtain ⟨_, rfl⟩ := h
              simp only [Eat_position, Eat_pending]
              omega

theorem ParseCSI_loop_pos (n : Nat) : ∀ (p : TerminalInputParser) (altered : Bool)
    (argument : Int) (arguments : List Int),
    ((p.pending_.length : Int) - p.position_).toNat = n →
    ∀ o p1, ParseCSI.loop p altered argument arguments = some (o, p1) →
      p.position_ < p1.position_ ∧
        (p1.position_ ≤ p.pending_.length ∨ p1.position_ = p.position_ + 1) := by
  induction n using Nat.strong_induction_on with
  | _ n ih =>
    intro p altered argument arguments hn o p1 h
    rw [ParseCSI.loop] at h
    split at h
    · rename_i h1
      simp only [Option.some.injEq, Prod.mk.injEq] at h
      obtain ⟨_, rfl⟩ := h
      exact ⟨by rw [Eat_position]; omega, Or.inr rfl⟩
    · rename_i h1
      rw [Eat_fst_false] at h1
      split at h
      · cases h
      · split_ifs at h
        all_goals first
          | (simp only [Option.some.injEq, Prod.mk.injEq] at h
             obtain ⟨_, rfl⟩ := h
             exact ⟨by rw [Eat_position]; omega, Or.inr rfl⟩)
          | (have hrec := ih _ (by simp only [Eat_position, Eat_pending]; omega)
               (Eat p).2 _ _ _ rfl o p1 h
             simp only [Eat_position, Eat_pending] at hrec
             omega)

theorem ParseUTF8_loop_pos (first_zero : Int) (n : Nat) : ∀ (i : Int)
    (p : TerminalInputParser), (first_zero + 1 - i).toNat = n →
    ∀ o p1, ParseUTF8.loop first_zero i p = some (o, p1) →
      (i ≤ first_zero → p.position_ < p1.position_) ∧ p.position_ ≤ p1.position_ ∧
        (p1.position_ ≤ p.pending_.length ∨ p1.position_ ≤ p.position_ + 1) := by
  induction n using Nat.strong_induction_on with
  | _ n ih =>
    intro i p hn o p1 h
    rw [ParseUTF8.loop] at h
    split at h
    · rename_i hi
      split at h
      · simp only [Option.some.injEq, Prod.mk.injEq] at h
        obtain ⟨_, rfl⟩ := h
        simp only [Eat_position, Eat_pending]
        omega
      · rename_i h1
        rw [Eat_fst_false] at h1
        split at h
        · cases h
        · split_ifs at h
          · simp only [Option.some.injEq, Prod.mk.injEq] at h
            obtain ⟨_, rfl⟩ := h
            simp only [Eat_position, Eat_pending]
            omega
          · simp only [Option.some.injEq, Prod.mk.injEq] at h
            obtain ⟨_, rfl⟩ := h
            simp only [Eat_position, Eat_pending]
            omega
          · have := ih _ (by omega) (i + 1) (Eat p).2 rfl o p1 h
            simp only [Eat_position, Eat_pending] at this
            omega
    · simp only [Option.some.injEq, Prod.mk.injEq] at h
      obtain ⟨_, rfl⟩ := h
      omega


theorem ParseUTF8_pos (p : TerminalInputParser) (o : Output) (p1 : TerminalInputParser)
    (h : ParseUTF8 p = some (o, p1)) :
    p.position_ ≤ p1.position_ ∧
      (p1.position_ ≤ p.pending_.length ∨ p1.position_ ≤ p.position_ + 1) := by
  unfold ParseUTF8 at h
  split at h
  · cases h
  · simp only [] at h
    split_ifs at h
    · simp only [Option.some.injEq, Prod.mk.injEq] at h
      obtain ⟨_, rfl⟩ := h
      omega
    · simp only [Option.some.injEq, Prod.mk.injEq] at h
      obtain ⟨_, rfl⟩ := h
      omega
    · exact (ParseUTF8_loop_pos _ _ 2 p rfl o p1 h).2

theorem ParseESC_pos (p : TerminalInputParser) (o : Output) (p1 : TerminalInputParser)
    (h : ParseESC p = some (o, p1)) :
    p.position_ < p1.position_ ∧
      (p1.position_ ≤ p.pending_.length ∨ p1.position_ = p.position_ + 1) := by
  unfold ParseESC at h
  split at h
  · simp only [Option.some.injEq, Prod.mk.injEq] at h
    obtain ⟨_, rfl⟩ := h
    exact ⟨by rw [Eat_position]; omega, Or.inr rfl⟩
  · rename_i h1
    rw [Eat_fst_false] at h1
    split at h
    · cases h
    · split_ifs at h with h80 h91 h93 h2
      · have := ParseDCS_pos _ (Eat p).2 rfl o p1 h
        simp only [Eat_position, Eat_pending] at this
        omega
      · have := ParseCSI_loop_pos _ (Eat p).2 false 0 [] rfl o p1 h
        simp only [Eat_position, Eat_pending] at this
        omega
      · have := ParseOSC_pos _ (Eat p).2 rfl o p1 h
        simp only [Eat_position, Eat_pending] at this
        omega
      · rw [Eat_fst_false] at h2
        simp only [Option.some.injEq, Prod.mk.injEq] at h
        obtain ⟨_, rfl⟩ := h
        simp only [Eat_position, Eat_pending] at h2 ⊢
        omega
      · rw [Eat_fst_false] at h2
        simp only [Option.some.injEq, Prod.mk.injEq] at h
        obtain ⟨_, rfl⟩ := h
        simp only [Eat_position, Eat_pending] at h2 ⊢
        omega

theorem Parse_pos (p : TerminalInputParser) (o : Output) (p1 : TerminalInputParser)
    (h : Parse p = some (o, p1)) :
    p.position_ < p1.position_ ∧
      (p1.position_ ≤ p.pending_.length ∨ p1.position_ = p.position_ + 1) := by
  unfold Parse at h
  split at h
  · simp only [Option.some.injEq, Prod.mk.injEq] at h
    obtain ⟨_, rfl⟩ := h
    exact ⟨by rw [Eat_position]; omega, Or.inr rfl⟩
  · rename_i h1
    rw [Eat_fst_false] at h1
    split at h
    · cases h
    · split_ifs at h
      · simp only [Option.some.injEq, Prod.mk.injEq] at h
        obtain ⟨_, rfl⟩ := h
        exact ⟨by rw [Eat_position]; omega, Or.inr rfl⟩
      · have := ParseESC_pos (Eat p).2 o p1 h
        simp only [Eat_position, Eat_pending] at this
        omega
      · simp only [Option.some.injEq, Prod.mk.injEq] at h
        obtain ⟨_, rfl⟩ := h
        exact ⟨by rw [Eat_position]; omega, Or.inr rfl⟩
      · simp only [Option.some.injEq, Prod.mk.injEq] at h
        obtain ⟨_, rfl⟩ := h
        exact ⟨by rw [Eat_position]; omega, Or.inr rfl⟩
      · have := ParseUTF8_pos (Eat p).2 o p1 h
        simp only [Eat_position, Eat_pending] at this
        omega

/-- C19: `Parse` returns on every pending buffer, whatever its bytes: started as `Add`
starts it (scan position -1), it ends in the state reached by `n` calls of `Eat`, with
`n` at most the buffer length plus one; and every pass through one of its loops (DCS,
OSC, CSI, UTF-8 continuation) moves the scan position forward. -/
theorem C19_parse_scan_bound (p : TerminalInputParser) (hpos : p.position_ = -1) :
    (∃ (o : Output) (p1 : TerminalInputParser) (n : Nat), Parse p = some (o, p1) ∧
      p1 = (fun s => (Eat s).2)^[n] p ∧ 1 ≤ n ∧ n ≤ p.pending_.length + 1) ∧
    (∀ q o q1, ParseDCS q = some (o, q1) → q.position_ < q1.position_) ∧
    (∀ q o q1, ParseOSC q = some (o, q1) → q.position_ < q1.position_) ∧
    (∀ q altered argument arguments o q1,
      ParseCSI.loop q altered argument arguments = some (o, q1) →
        q.position_ < q1.position_) ∧
    (∀ first_zero i q o q1, i ≤ first_zero →
      ParseUTF8.loop first_zero i q = some (o, q1) → q.position_ < q1.position_) := by
  refine ⟨?_, ?_, ?_, ?_, ?_⟩
  · obtain ⟨pos, hparse⟩ := Parse_eq p hpos
    have hb := Parse_pos p _ _ hparse
    simp only [] at hb
    refine ⟨_, _, (pos + 1).toNat, hparse, ?_, by omega, by omega⟩
    rw [Eat_iterate]
    congr 1
    omega
  · intro q o q1 h
    exact (ParseDCS_pos _ q rfl o q1 h).1
  · intro q o q1 h
    exact (ParseOSC_pos _ q rfl o q1 h).1
  · intro q altered argument arguments o q1 h
    exact (ParseCSI_loop_pos _ q altered argument arguments rfl o q1 h).1
  · intro first_zero i q o q1 hi h
    exact (ParseUTF8_loop_pos first_zero _ i q rfl o q1 h).1 hi

/-- Witness of C19: on `ESC [ 1` the scan makes at most four calls of `Eat`. -/
theorem C19_parse_scan_bound_witness :
    ∃ (o : Output) (p1 : TerminalInputParser) (n : Nat),
      Parse { out_ := [], position_ := -1, timeout_ := 0, pending_ := [27, 91, 49] } =
        some (o, p1) ∧
      p1 = (fun s => (Eat s).2)^[n]
        { out_ := [], position_ := -1, timeout_ := 0, pending_ := [27, 91, 49] } ∧
      1 ≤ n ∧ n ≤ 3 + 1 :=
  (C19_parse_scan_bound
    { out_ := [], position_ := -1, timeout_ := 0, pending_ := [27, 91, 49] } rfl).1


/-! ## The extended marker, invalid lead bytes, and reads within the buffer -/

theorem outcomeCSI_altered (l : List Nat) : ∀ (a1 a2 : Bool) (argument : Int)
    (arguments : List Int),
    outcomeCSI l a1 argument arguments = outcomeCSI l a2 argument arguments := by
  induction l with
  | nil => intro _ _ _ _; rfl
  | cons c l ih =>
    intro a1 a2 argument arguments
    simp only [outcomeCSI]
    split_ifs <;> first | exact ih _ _ _ _ | rfl

/-- C21: the extended marker `<` right after `ESC [` does not change decoding: for
every byte sequence `rest`, `Parse` of `ESC [ < rest` and `Parse` of `ESC [ rest` return
the same `Output`, kind and decoded fields alike. -/
theorem C21_extended_marker_inert (rest : List Nat) (p q : TerminalInputParser)
    (hp : p.position_ = -1) (hq : q.position_ = -1)
    (hpbuf : p.pending_ = 27 :: 91 :: 60 :: rest) (hqbuf : q.pending_ = 27 :: 91 :: rest) :
    ∃ o p1 q1, Parse p = some (o, p1) ∧ Parse q = some (o, q1) := by
  obtain ⟨pp, hpp⟩ := Parse_eq p hp
  obtain ⟨qp, hqp⟩ := Parse_eq q hq
  have e : outcome p.pending_ = outcome q.pending_ := by
    rw [hpbuf, hqbuf]
    simp only [outcome, outcomeESC]
    norm_num
    simp only [outcomeCSI]
    norm_num
    exact outcomeCSI_altered rest true false 0 []
  rw [e] at hpp
  exact ⟨_, _, _, hpp, hqp⟩

/-- Witness of C21: `ESC [ < 0 ; 10 ; 20 M` and `ESC [ 0 ; 10 ; 20 M` decode to the same
`Output`. -/
theorem C21_extended_marker_inert_witness :
    ∃ o p1 q1,
      Parse { out_ := [], position_ := -1, timeout_ := 0,
              pending_ := [27, 91, 60, 48, 59, 49, 48, 59, 50, 48, 77] } = some (o, p1) ∧
      Parse { out_ := [], position_ := -1, timeout_ := 0,
              pending_ := [27, 91, 48, 59, 49, 48, 59, 50, 48, 77] } = some (o, q1) :=
  C21_extended_marker_inert [48, 59, 49, 48, 59, 50, 48, 77]
    { out_ := [], position_ := -1, timeout_ := 0,
      pending_ := [27, 91, 60, 48, 59, 49, 48, 59, 50, 48, 77] }
    { out_ := [], position_ := -1, timeout_ := 0,
      pending_ := [27, 91, 48, 59, 49, 48, 59, 50, 48, 77] }
    rfl rfl rfl rfl

/-- C22: on a buffer whose first byte has five or more leading one bits (0xF8..0xFF),
whatever follows, `Parse` returns `UNCOMPLETED`; from a state holding such a buffer
every further `Add` sends nothing and keeps all bytes pending, and a `Timeout` that
reaches the threshold sends the buffer as `Special` and empties it. -/
theorem C22_invalid_lead_stays_pending (b : Nat) (hlo : 248 ≤ b) (hhi : b ≤ 255)
    (rest : List Nat) :
    (∀ p : TerminalInputParser, p.position_ = -1 → p.pending_ = b :: rest →
      ∃ p1, Parse p = some (Output.UNCOMPLETED, p1)) ∧
    (∀ (p : TerminalInputParser) (cs : List Nat), p.pending_ = b :: rest →
      ∃ p1, AddAll p cs = some p1 ∧ p1.out_ = p.out_ ∧ p1.pending_ = b :: rest ++ cs) ∧
    (∀ (p : TerminalInputParser) (t : Int), p.pending_ = b :: rest →
      -2147483648 ≤ p.timeout_ + t → p.timeout_ + t < 2147483648 → 50 ≤ p.timeout_ + t →
      (Timeout p t).out_ = p.out_ ++ [Event.Special (b :: rest)] ∧
        (Timeout p t).pending_ = []) := by
  refine ⟨?_, ?_, ?_⟩
  · intro p hpos hbuf
    obtain ⟨pos, hparse⟩ := Parse_eq p hpos
    rw [hbuf, outcome_utf8 b rest (by omega) (by omega)] at hparse
    exact ⟨_, hparse⟩
  · intro p cs hbuf
    obtain ⟨p1, h1, h2, h3⟩ := AddAll_uncompleted cs p (by
      intro k _ _
      rw [hbuf]
      exact outcome_utf8 b _ (by omega) (by omega))
    exact ⟨p1, h1, h2, by rw [h3, hbuf]⟩
  · intro p t hbuf hlo2 hhi2 h50
    have hw : wrapInt32 (p.timeout_ + t) = p.timeout_ + t := by
      unfold wrapInt32
      omega
    rw [Timeout_ge_nonempty p t (by omega) (by simp [hbuf]), hbuf]
    exact ⟨rfl, rfl⟩

/-- Witness of C22: with `[0xF8]` pending, the bytes `A`, CAN and `\` all stay
pending. -/
theorem C22_invalid_lead_stays_pending_witness :
    ∃ p1, AddAll { out_ := [], position_ := 0, timeout_ := 0, pending_ := [248] }
        [65, 24, 92] = some p1 ∧
      p1.out_ = [] ∧ p1.pending_ = [248, 65, 24, 92] :=
  (C22_invalid_lead_stays_pending 248 (by decide) (by decide) []).2.1
    { out_ := [], position_ := 0, timeout_ := 0, pending_ := [248] } [65, 24, 92] rfl

theorem Current_eq_none (q : TerminalInputParser) :
    Current q = none ↔ ¬ (0 ≤ q.position_ ∧ q.position_ < (q.pending_.length : Int)) := by
  unfold Current
  split_ifs with h
  · rw [List.getElem?_eq_none_iff]
    omega
  · simp only [true_iff]
    omega

/-- C23: `Current()` has a result exactly when `0 <= position_ < pending_.size()`,
and a read outside the buffer makes the parsing functions return no result; started
as `Add` starts it (scan position -1), `Parse` returns a result on every buffer, so
does `Add` in every state, and so does each sub-parser entered after a successful
`Eat`: no read outside the pending buffer is reachable. -/
theorem C23_scan_in_bounds (p : TerminalInputParser) (hpos : p.position_ = -1) :
    (∀ q : TerminalInputParser,
      Current q = none ↔ ¬ (0 ≤ q.position_ ∧ q.position_ < (q.pending_.length : Int))) ∧
    (∃ o p1, Parse p = some (o, p1)) ∧
    (∀ (q : TerminalInputParser) (c : Nat), ∃ q1, Add q c = some q1) ∧
    (∀ q : TerminalInputParser, -1 ≤ q.position_ →
      (∃ r, ParseESC q = some r) ∧ (∃ r, ParseDCS q = some r) ∧
        (∃ r, ParseOSC q = some r) ∧ (∃ r, ParseCSI q = some r)) ∧
    (∀ q : TerminalInputParser,
      0 ≤ q.position_ → q.position_ < (q.pending_.length : Int) →
        ∃ r, ParseUTF8 q = some r) := by
  refine ⟨Current_eq_none, ?_, ?_, ?_, ?_⟩
  · obtain ⟨pos, h⟩ := Parse_eq p hpos
    exact ⟨_, _, h⟩
  · intro q c
    obtain ⟨pos, h⟩ := Add_eq q c
    exact ⟨_, h⟩
  · intro q hq
    obtain ⟨_, h1⟩ := ParseESC_eq q hq
    obtain ⟨_, h2⟩ := ParseDCS_eq q hq
    obtain ⟨_, h3⟩ := ParseOSC_eq q hq
    obtain ⟨_, h4⟩ := ParseCSI_eq q hq
    exact ⟨⟨_, h1⟩, ⟨_, h2⟩, ⟨_, h3⟩, ⟨_, h4⟩⟩
  · intro q h0 h1
    cases hc : Current q with
    | none => exact absurd ⟨h0, h1⟩ ((Current_eq_none q).mp hc)
    | some head => exact ⟨_, ParseUTF8_eq q head hc⟩

/-- Witness of C23: `Parse` on the buffer `ESC [ 1 ;` returns a result. -/
theorem C23_scan_in_bounds_witness :
    ∃ o p1, Parse { out_ := [], position_ := -1, timeout_ := 0,
                    pending_ := [27, 91, 49, 59] } = some (o, p1) :=
  (C23_scan_in_bounds
    { out_ := [], position_ := -1, timeout_ := 0, pending_ := [27, 91, 49, 59] } rfl).2.1

end ftxui
